import Mathlib

/-!
Verification of the documentation-navigation synchronizer
(src/scripts/sync-docs-config.ts).

The script is embedded shallowly: strings are Lean strings (processed as
character lists), the filesystem is an association list from absolute
paths to file contents, JavaScript Maps and Sets are association lists
and lists with membership tests, and the in-place mutation of the nav
config is explicit state passing.  Paths are modelled POSIX-style
(separator '/'), matching the environment the script runs in.
-/

namespace SyncDocs

/-! ### Character and string utilities (JS string semantics) -/

/-- The characters matched by the JavaScript regex class backslash-s,
restricted to the ASCII range (the files being parsed are ASCII). -/
def jsWhitespace (c : Char) : Bool :=
  c = ' ' || c = '\t' || c = '\n' || c = '\r' || c = '\x0b' || c = '\x0c'

/-- JS String.prototype.trim on a character list. -/
def trimChars (l : List Char) : List Char :=
  ((l.dropWhile jsWhitespace).reverse.dropWhile jsWhitespace).reverse

/-- ASCII lower-casing of one character (JS toLowerCase on the ASCII
subset actually appearing in file names and frontmatter values). -/
def lowerChar (c : Char) : Char :=
  if 'A' ≤ c && c ≤ 'Z' then Char.ofNat (c.toNat + 32) else c

/-- ASCII lower-casing of a character list. -/
def lowerChars (l : List Char) : List Char := l.map lowerChar

/-- Index of the last occurrence of a character, as JS lastIndexOf
(but returning none instead of -1). -/
def lastIdxOf (c : Char) (l : List Char) : Option Nat :=
  match l.reverse.findIdx? (· = c) with
  | none => none
  | some k => some (l.length - 1 - k)

/-- Split a character list at every newline, keeping empty pieces
(the splitting part of the JS split on the regex CR?LF). -/
def splitNl : List Char → List (List Char)
  | [] => [[]]
  | '\n' :: rest => [] :: splitNl rest
  | c :: rest =>
    match splitNl rest with
    | [] => [[c]]
    | piece :: more => (c :: piece) :: more

/-- Split on the regex CR?LF: split at newlines, then drop one carriage
return at the end of each piece. -/
def splitLines (l : List Char) : List (List Char) :=
  (splitNl l).map (fun piece => if piece.getLast? = some '\r' then piece.dropLast else piece)

/-- First index at which pat occurs as a contiguous sublist. -/
def findSubAux (pat : List Char) : List Char → Nat → Option Nat
  | [], n => if pat.isEmpty then some n else none
  | l@(_ :: rest), n => if pat.isPrefixOf l then some n else findSubAux pat rest (n + 1)

/-- Lexicographic comparison of strings by character code, as the
default JS Array.prototype.sort comparator. -/
def leChars : List Char → List Char → Bool
  | [], _ => true
  | _ :: _, [] => false
  | a :: as_, b :: bs =>
    if a = b then leChars as_ bs else decide (a.toNat < b.toNat)

/-- String order used to sort the content file list. -/
def leString (a b : String) : Bool := leChars a.toList b.toList

/-- Insertion of a string into a sorted list (helper of the sort). -/
def sortInsert (x : String) : List String → List String
  | [] => [x]
  | y :: rest => if leString x y then x :: y :: rest else y :: sortInsert x rest

/-- Sorting of the content file list (files.sort() in the source; the
paths produced by the directory scan are pairwise distinct, so any
correct sort agrees with the JS one). -/
def sortStrings (l : List String) : List String := l.foldr sortInsert []

/-! ### Association lists for JS Map, lists for JS Set -/

/-- JS Map.prototype.get. -/
def mapGet {α : Type} : List (String × α) → String → Option α
  | [], _ => none
  | (k', v') :: rest, k => if k' = k then some v' else mapGet rest k

/-- JS Map.prototype.set: overwrite in place, else append. -/
def mapSet {α : Type} : List (String × α) → String → α → List (String × α)
  | [], k, v => [(k, v)]
  | (k', v') :: rest, k, v =>
    if k' = k then (k, v) :: rest else (k', v') :: mapSet rest k v

/-- JS Map.prototype.has. -/
def mapHas {α : Type} (m : List (String × α)) (k : String) : Bool :=
  (mapGet m k).isSome

/-- JS Set.prototype.add (insertion order kept, duplicates ignored). -/
def setAdd (s : List String) (x : String) : List String :=
  if s.contains x then s else s ++ [x]

/-- pushUnique from the source: append a value to an array unless
already present. -/
def pushUnique (list : List String) (value : String) : List String :=
  if list.contains value then list else list ++ [value]

/-! ### POSIX path arithmetic (node:path on absolute POSIX paths) -/

/-- Split a character list at every '/' (keeping empty segments, which
normalization then drops). -/
def splitSlash : List Char → List (List Char)
  | [] => [[]]
  | '/' :: rest => [] :: splitSlash rest
  | c :: rest =>
    match splitSlash rest with
    | [] => [[c]]
    | piece :: more => (c :: piece) :: more

/-- Resolution of the segments of an absolute path: empty and dot
segments vanish, dot-dot pops (and is dropped at the root). -/
def normalizeSegsAux : List (List Char) → List (List Char) → List (List Char)
  | [], acc => acc.reverse
  | s :: rest, acc =>
    if s = [] || s = ['.'] then normalizeSegsAux rest acc
    else if s = ['.', '.'] then
      normalizeSegsAux rest (match acc with | [] => [] | _ :: t => t)
    else normalizeSegsAux rest (s :: acc)

/-- Join path segments with '/' separators. -/
def joinSegs : List (List Char) → List Char
  | [] => []
  | [s] => s
  | s :: rest => s ++ '/' :: joinSegs rest

/-- Normalize an absolute POSIX path ("." and ".." resolved, duplicate
and trailing separators dropped). -/
def normalizePath (p : String) : String :=
  String.mk ('/' :: joinSegs (normalizeSegsAux (splitSlash p.toList) []))

/-- The working directory the script resolves relative paths against:
REPO_ROOT = resolve('.') in the source. -/
def REPO_ROOT : String := "/repo"

/-- node:path resolve with a base directory, for the absolute bases the
script uses. -/
def resolvePath (base rel : String) : String :=
  if rel.toList.head? = some '/' then normalizePath rel
  else normalizePath (base ++ "/" ++ rel)

/-- resolve(p) with a single argument: normalize, against the working
directory when p is relative. -/
def resolveOne (p : String) : String :=
  if p.toList.head? = some '/' then normalizePath p else resolvePath REPO_ROOT p

/-- node:path dirname, for the normalized paths the script passes it. -/
def dirname (p : String) : String :=
  match lastIdxOf '/' p.toList with
  | none => "."
  | some 0 => "/"
  | some i => String.mk (p.toList.take i)

/-- node:path basename, for the normalized paths the script passes it. -/
def basename (p : String) : String :=
  match lastIdxOf '/' p.toList with
  | none => p
  | some i => String.mk (p.toList.drop (i + 1))

/-- Normalized segments of a path (used by relative). -/
def pathSegs (p : String) : List (List Char) :=
  normalizeSegsAux (splitSlash p.toList) []

/-- Drop the common prefix of two segment lists. -/
def dropCommon : List (List Char) → List (List Char) → (List (List Char) × List (List Char))
  | a :: as_, b :: bs =>
    if a = b then dropCommon as_ bs else (a :: as_, b :: bs)
  | as_, bs => (as_, bs)

/-- node:path relative between two absolute paths. -/
def relativePath (fromPath toPath : String) : String :=
  let rest := dropCommon (pathSegs fromPath) (pathSegs toPath)
  String.mk (joinSegs (rest.1.map (fun _ => ['.', '.']) ++ rest.2))

/-! ### Filesystem model -/

/-- The filesystem: association list from file path to file content.
fs.readFile succeeds exactly on listed paths. -/
abbrev FS := List (String × String)

/-- fs.readFile with the utf8 encoding, as a lookup. -/
def fsRead (fs : FS) (p : String) : Option String := mapGet fs p

/-! ### Frontmatter reader -/

/-- The recognized frontmatter fields.  JS truthiness of the optional
string fields distinguishes absent/empty from a usable value. -/
structure FrontmatterInfo where
  title : Option String := none
  skip : Option Bool := none
  ref : Option String := none
deriving DecidableEq, Repr

/-- Truthiness of an optional JS string (undefined and "" are falsy). -/
def strTruthy : Option String → Bool
  | none => false
  | some s => s ≠ ""

/-- The FRONTMATTER_REGEX match: caret dash dash dash, greedy
whitespace run ending at a newline, lazily captured block, newline and
three dashes.  The greedy whitespace backtracks from the last newline
of the run; the lazy group ends at the first later "\n---". -/
def fmTryPositions (rest : List Char) : List Nat → Option (List Char)
  | [] => none
  | i :: more =>
    let tail := rest.drop (i + 1)
    match findSubAux ['\n', '-', '-', '-'] tail 0 with
    | some j => some (tail.take j)
    | none => fmTryPositions rest more

/-- Captured group of FRONTMATTER_REGEX applied to a file's raw text,
or none when the file has no recognizable header block. -/
def fmBlock (raw : List Char) : Option (List Char) :=
  if ['-', '-', '-'].isPrefixOf raw then
    let rest := raw.drop 3
    let wsLen := (rest.takeWhile jsWhitespace).length
    let nlIdxs := ((List.range wsLen).filter (fun i => rest.get? i = some '\n')).reverse
    fmTryPositions rest nlIdxs
  else none

/-- stripQuotes from the source. -/
def stripQuotes (value : List Char) : List Char :=
  if (value.head? = some '"' && value.getLast? = some '"')
      || (value.head? = some '\'' && value.getLast? = some '\'') then
    (value.drop 1).dropLast
  else value

/-- First piece of the JS split on the regex of one-or-more whitespace
characters followed by '#': everything before the first inline comment. -/
def splitWsHashFirst : List Char → List Char
  | [] => []
  | c :: rest =>
    if jsWhitespace c && ((rest.dropWhile jsWhitespace).head? = some '#') then []
    else c :: splitWsHashFirst rest

/-- One line of the header block applied to the info record, as the
for-loop body in readDocInfo. -/
def applyLine (info : FrontmatterInfo) (line : List Char) : FrontmatterInfo :=
  let trimmed := trimChars line
  if trimmed.isEmpty || trimmed.head? = some '#' then info
  else
    match trimmed.findIdx? (· = ':') with
    | none => info
    | some colonIndex =>
      if colonIndex = 0 then info
      else
        let keyPart := trimChars (trimmed.take colonIndex)
        let valuePart0 := trimChars (trimmed.drop (colonIndex + 1))
        if valuePart0.isEmpty then info
        else
          let valuePart := splitWsHashFirst valuePart0
          if keyPart = "title".toList then
            { info with title := some (String.mk (trimChars (stripQuotes valuePart))) }
          else if keyPart = "skip".toList then
            let normalized := lowerChars valuePart
            { info with skip := some (normalized = "true".toList
                || normalized = "yes".toList || normalized = "1".toList) }
          else if keyPart = "ref".toList then
            { info with ref := some (String.mk (stripQuotes valuePart)) }
          else info

/-- Parse the header block into a FrontmatterInfo, line by line. -/
def parseBlock (block : List Char) : FrontmatterInfo :=
  (splitLines block).foldl applyLine {}

/-- resolveRefPath from the source: none models the null return. -/
def resolveRefPath (sourceFile refValue docsDir : String) : Option String :=
  let cleanRef := String.mk (refValue.toList.takeWhile (fun c => !(jsWhitespace c) && c ≠ '#'))
  if cleanRef = "" then none
  else if cleanRef.toList.head? = some '.' then
    some (resolvePath (dirname sourceFile) cleanRef)
  else if "docs/".toList.isPrefixOf cleanRef.toList then
    some (resolvePath REPO_ROOT cleanRef)
  else some (resolvePath docsDir cleanRef)

/-- The process-wide docInfoCache, keyed by resolved path. -/
abbrev Cache := List (String × Option FrontmatterInfo)

/-- The ref-following block of readDocInfo (its lines after parsing
the header), abstracted over the recursive call: when the title is
falsy and a ref is present, resolve it, guard against cycles through
the in-progress set, read the referenced file, and adopt its title and
a true skip. -/
def followRef (recur : String → List String → Cache → Option FrontmatterInfo × Cache)
    (filePath docsDir : String) (stack : List String) (cache : Cache)
    (info0 : FrontmatterInfo) : FrontmatterInfo × Cache :=
  if !(strTruthy info0.title) && strTruthy info0.ref then
    match resolveRefPath filePath (info0.ref.getD "") docsDir with
    | none => (info0, cache)
    | some refPath =>
      if refPath = "" || stack.contains refPath then (info0, cache)
      else
        let rec1 := recur refPath (stack ++ [refPath]) cache
        match rec1.1 with
        | none => (info0, rec1.2)
        | some referenced =>
          let info1 := if strTruthy referenced.title then
              { info0 with title := referenced.title } else info0
          let info2 := if referenced.skip = some true then
              { info1 with skip := some true } else info1
          (info2, rec1.2)
  else (info0, cache)

/-- readDocInfo with an explicit recursion budget.  The in-progress
set stack is threaded explicitly (add before the recursive call,
delete after, as in the source); the cache is state passed through.
The budget only bounds the ref-chain depth; readDocInfo below supplies
a budget large enough that it is never exhausted (proved in the
termination theorem). -/
def readDocInfoFuel (fs : FS) (docsDir : String) :
    Nat → String → List String → Cache → Option FrontmatterInfo × Cache
  | 0, _, _, cache => (none, cache)
  | fuel + 1, filePath, stack, cache =>
    match mapGet cache (resolveOne filePath) with
    | some cached => (cached, cache)
    | none =>
      match fsRead fs filePath with
      | none => (none, mapSet cache (resolveOne filePath) none)
      | some raw =>
        match fmBlock raw.toList with
        | none => (none, mapSet cache (resolveOne filePath) none)
        | some block =>
          let step := followRef (readDocInfoFuel fs docsDir fuel) filePath docsDir
            stack cache (parseBlock block)
          (some step.1, mapSet step.2 (resolveOne filePath) step.1)

/-- readDocInfo entry point: fresh in-progress set, budget larger than
the number of files (a ref chain visits pairwise distinct readable
paths, so the budget is never exhausted; proved below). -/
def readDocInfo (fs : FS) (docsDir filePath : String) (cache : Cache) :
    Option FrontmatterInfo × Cache :=
  readDocInfoFuel fs docsDir (fs.length + 2) filePath [] cache

/-! ### Route deriver -/

/-- routeFromFile: path relative to the root, extension stripped
case-insensitively (the regex alternation matches ".mdx" in full),
separators already '/'. -/
def routeFromFile (baseDir filePath : String) : String :=
  let relChars := (relativePath baseDir filePath).toList
  let low := lowerChars relChars
  let withoutExt :=
    if ".mdx".toList.isSuffixOf low then relChars.take (relChars.length - 4)
    else if ".md".toList.isSuffixOf low then relChars.take (relChars.length - 3)
    else relChars
  String.mk withoutExt

/-- parentRoute from the source: up to the last '/', or "" without one. -/
def parentRoute (route : String) : String :=
  match lastIdxOf '/' route.toList with
  | none => ""
  | some i => String.mk (route.toList.take i)

/-- README_REGEX test on a file name (case-insensitive). -/
def isReadme (fileName : String) : Bool :=
  lowerChars fileName.toList = "readme.md".toList
    || lowerChars fileName.toList = "readme.mdx".toList

/-- DRAFT_REGEX test on a file name (case-insensitive). -/
def isDraft (fileName : String) : Bool :=
  ".draft.md".toList.isSuffixOf (lowerChars fileName.toList)
    || ".draft.mdx".toList.isSuffixOf (lowerChars fileName.toList)

/-- listContentFiles: every file under the root whose name ends in .md
or .mdx (case-sensitive, as in the source), sorted. -/
def listContentFiles (fs : FS) (dir : String) : List String :=
  sortStrings ((fs.map Prod.fst).filter (fun p =>
    (dir ++ "/").toList.isPrefixOf p.toList
      && (".md".toList.isSuffixOf p.toList || ".mdx".toList.isSuffixOf p.toList)))

/-! ### Nav config data model -/

/-- A nav entry. -/
structure NavItem where
  label : String
  to' : String
  badge : Option String := none
deriving DecidableEq, Repr

/-- A framework-specific sub-container of a section. -/
structure FrameworkGroup where
  label : String
  children : List NavItem
deriving DecidableEq, Repr

/-- A top-level navigation section. -/
structure Section where
  label : String
  children : List NavItem
  frameworks : Option (List FrameworkGroup) := none
deriving DecidableEq, Repr

/-- The persisted nav configuration.  docSearch is an opaque payload
the tool never inspects; extra models unknown top-level keys, which
JSON.parse keeps and JSON.stringify writes back untouched. -/
structure DocsConfig where
  docSearch : String := ""
  sections : List Section
  users : Option (List String) := none
  extra : List (String × String) := []
deriving DecidableEq, Repr

/-- One label/title mismatch report line. -/
structure LabelMismatch where
  to' : String
  existing : String
  incoming : String
deriving DecidableEq, Repr

/-- The categorized change report. -/
structure ChangeLog where
  added : List String := []
  labelMismatch : List LabelMismatch := []
  removed : List String := []
  skipped : List String := []
  missingFrontmatter : List String := []
  unmatched : List String := []
  missingFiles : List String := []
deriving DecidableEq, Repr

/-! ### Placement index -/

/-- A placement, identified by position: the section index and, for a
framework group container, the group index.  The source's object
references (section, container, framework) are recovered from the
config by position. -/
structure Placement where
  sectionIdx : Nat
  frameworkIdx : Option Nat := none
deriving DecidableEq, Repr

/-- The two lookup maps of the placement index. -/
structure PlacementIndex where
  byRoute : List (String × Placement)
  byDir : List (String × Placement)
deriving DecidableEq, Repr

/-- The container a placement points at (children of the section, or of
the framework group). -/
def containerAt (config : DocsConfig) (p : Placement) : List NavItem :=
  match config.sections.get? p.sectionIdx with
  | none => []
  | some s =>
    match p.frameworkIdx with
    | none => s.children
    | some j =>
      match s.frameworks with
      | none => []
      | some fws =>
        match fws.get? j with
        | none => []
        | some fw => fw.children

/-- Replace the element at an index, when in range. -/
def listModify {α : Type} (f : α → α) : Nat → List α → List α
  | _, [] => []
  | 0, x :: rest => f x :: rest
  | n + 1, x :: rest => x :: listModify f n rest

/-- Write a container back into the config at a placement (the effect
of mutating the shared children array in the source). -/
def updateContainer (config : DocsConfig) (p : Placement) (c : List NavItem) : DocsConfig :=
  let setSec : Section → Section := fun s =>
    match p.frameworkIdx with
    | none => { s with children := c }
    | some j =>
      { s with frameworks := s.frameworks.map (listModify (fun fw => { fw with children := c }) j) }
  { config with sections := listModify setSec p.sectionIdx config.sections }

/-- The walk of the register closure and of findPlacement: the route
itself, then successive parentRoute results, stopping before the empty
string (and on the impossible fixed point, kept for faithfulness).
The budget of the auxiliary is large enough to emulate the while loop
(parentRoute shortens its argument). -/
def chainRoutesAux : Nat → String → List String
  | 0, _ => []
  | fuel + 1, route =>
    if route = "" then []
    else
      route ::
        (let parent := parentRoute route
         if parent = "" || parent = route then [] else chainRoutesAux fuel parent)

/-- The ancestor walk of a route. -/
def chainRoutes (route : String) : List String :=
  chainRoutesAux (route.length + 1) route

/-- The register closure of buildPlacementIndex: byRoute is set
unconditionally, byDir only where still absent, walking the ancestor
chain. -/
def registerRoute (idx : PlacementIndex) (route : String) (p : Placement) : PlacementIndex :=
  { byRoute := mapSet idx.byRoute route p
    byDir := (chainRoutes route).foldl
      (fun m r => if mapHas m r then m else mapSet m r p) idx.byDir }

/-- Pair each element with its index, starting at n. -/
def enumFrom {α : Type} (n : Nat) : List α → List (Nat × α)
  | [] => []
  | x :: rest => (n, x) :: enumFrom (n + 1) rest

/-- The (route, placement) registrations of one section, in the order
the nested loops of buildPlacementIndex perform them: direct children
first, then each framework group's children. -/
def sectionRegs (i : Nat) (s : Section) : List (String × Placement) :=
  s.children.map (fun item => (item.to', ⟨i, none⟩)) ++
    (match s.frameworks with
     | none => []
     | some fws =>
       (enumFrom 0 fws).flatMap (fun jfw =>
         jfw.2.children.map (fun item => (item.to', ⟨i, some jfw.1⟩))))

/-- All registrations of a config, in order. -/
def registrations (config : DocsConfig) : List (String × Placement) :=
  (enumFrom 0 config.sections).flatMap (fun is_ => sectionRegs is_.1 is_.2)

/-- buildPlacementIndex from the source. -/
def buildPlacementIndex (config : DocsConfig) : PlacementIndex :=
  (registrations config).foldl (fun idx rp => registerRoute idx rp.1 rp.2) ⟨[], []⟩

/-- The byRoute-then-byDir lookup at each step of the findPlacement
walk, stopping at the first hit. -/
def firstHit (index : PlacementIndex) : List String → Option Placement
  | [] => none
  | r :: rest =>
    match (mapGet index.byRoute r).orElse (fun _ => mapGet index.byDir r) with
    | some p => some p
    | none => firstHit index rest

/-- findPlacement from the source: walk up the ancestor chain, trying
byRoute then byDir at each route. -/
def findPlacement (route : String) (index : PlacementIndex) : Option Placement :=
  firstHit index (chainRoutes route)

/-! ### Reconciler -/

/-- ensureNavItem from the source: an existing entry with the same
route is never modified (a differing label is only reported); a new
entry is appended at the end. -/
def ensureNavItem (container : List NavItem) (item : NavItem) (log : ChangeLog) :
    List NavItem × ChangeLog :=
  match container.find? (fun entry => entry.to' == item.to') with
  | some existing =>
    if existing.label ≠ item.label then
      (container, { log with labelMismatch :=
        log.labelMismatch ++ [⟨item.to', existing.label, item.label⟩] })
    else (container, log)
  | none =>
    (container ++ [item], { log with added := log.added ++ [item.label ++ " -> " ++ item.to'] })

/-- removeSkipped's effect on one container: the kept entries (in
order) and the removed routes in the order the backwards splice loop
pushes them (last occurrence first). -/
def removeSkippedList (container : List NavItem) (skipped : List String) :
    List NavItem × List String :=
  match container with
  | [] => ([], [])
  | entry :: rest =>
    let r := removeSkippedList rest skipped
    if skipped.contains entry.to' then (r.1, r.2 ++ [entry.to'])
    else (entry :: r.1, r.2)

/-- removeSkipped from the source, with its log effect. -/
def removeSkipped (container : List NavItem) (skipped : List String) (log : ChangeLog) :
    List NavItem × ChangeLog :=
  let r := removeSkippedList container skipped
  (r.1, { log with removed := log.removed ++ r.2 })

/-- The loop state of one reconciliation pass, cache aside. -/
structure PureState where
  config : DocsConfig
  log : ChangeLog := {}
  skipRoutes : List String := []
  seenRoutes : List String := []
deriving DecidableEq, Repr

/-- The part of the per-file loop body that runs after readDocInfo:
title check, skip check, placement lookup, insertion. -/
def classifyStep (dir : String) (index : PlacementIndex) (st : PureState)
    (filePath route : String) : Option FrontmatterInfo → PureState
  | none =>
    { st with
      log := { st.log with
               missingFrontmatter := pushUnique st.log.missingFrontmatter (relativePath dir filePath) } }
  | some frontmatter =>
    if !(strTruthy frontmatter.title) then
      { st with
        log := { st.log with
                 missingFrontmatter := pushUnique st.log.missingFrontmatter (relativePath dir filePath) } }
    else if frontmatter.skip = some true then
      { st with skipRoutes := setAdd st.skipRoutes route
                log := { st.log with skipped := pushUnique st.log.skipped route } }
    else
      match findPlacement route index with
      | none =>
        { st with log := { st.log with unmatched := pushUnique st.log.unmatched route } }
      | some placement =>
        let title := String.mk (trimChars (frontmatter.title.getD "").toList)
        let r := ensureNavItem (containerAt st.config placement) ⟨title, route, none⟩ st.log
        { st with config := updateContainer st.config placement r.1, log := r.2 }

/-- The full loop state, with the frontmatter cache. -/
structure SyncState where
  pure : PureState
  cache : Cache
deriving DecidableEq, Repr

/-- One iteration of the per-file loop of processDocsConfig. -/
def cachedStep (fs : FS) (dir configPath : String) (index : PlacementIndex)
    (st : SyncState) (filePath : String) : SyncState :=
  if filePath = configPath then st
  else
    let fileName := basename filePath
    let route := routeFromFile dir filePath
    let st1 : PureState := { st.pure with seenRoutes := setAdd st.pure.seenRoutes route }
    if isReadme fileName || isDraft fileName then
      ⟨{ st1 with skipRoutes := setAdd st1.skipRoutes route }, st.cache⟩
    else
      let r := readDocInfo fs dir filePath st.cache
      ⟨classifyStep dir index st1 filePath route r.1, r.2⟩

/-- The same iteration with the frontmatter reader replaced by an
oracle (used to relate two runs through the cache). -/
def pureStep (oracle : String → Option FrontmatterInfo) (dir configPath : String)
    (index : PlacementIndex) (st : PureState) (filePath : String) : PureState :=
  if filePath = configPath then st
  else
    let fileName := basename filePath
    let route := routeFromFile dir filePath
    let st1 : PureState := { st with seenRoutes := setAdd st.seenRoutes route }
    if isReadme fileName || isDraft fileName then
      { st1 with skipRoutes := setAdd st1.skipRoutes route }
    else classifyStep dir index st1 filePath route (oracle filePath)

/-- The skip-pruning of the framework groups of one section, in loop
order, threading the log. -/
def pruneFrameworks (skipRoutes : List String) :
    List FrameworkGroup → ChangeLog → List FrameworkGroup × ChangeLog
  | [], log => ([], log)
  | fw :: rest, log =>
    let r := removeSkipped fw.children skipRoutes log
    let rr := pruneFrameworks skipRoutes rest r.2
    ({ fw with children := r.1 } :: rr.1, rr.2)

/-- The skip-pruning pass over one section (children, then each
framework group). -/
def pruneSection (skipRoutes : List String) (s : Section) (log : ChangeLog) :
    Section × ChangeLog :=
  let rc := removeSkipped s.children skipRoutes log
  match s.frameworks with
  | none => ({ s with children := rc.1 }, rc.2)
  | some fws =>
    let rf := pruneFrameworks skipRoutes fws rc.2
    ({ s with children := rc.1, frameworks := some rf.1 }, rf.2)

/-- The skip-pruning pass over a section list, in loop order. -/
def pruneSections (skipRoutes : List String) :
    List Section → ChangeLog → List Section × ChangeLog
  | [], log => ([], log)
  | s :: rest, log =>
    let rs := pruneSection skipRoutes s log
    let rr := pruneSections skipRoutes rest rs.2
    (rs.1 :: rr.1, rr.2)

/-- The skip-pruning pass over the whole config. -/
def pruneConfig (config : DocsConfig) (skipRoutes : List String) (log : ChangeLog) :
    DocsConfig × ChangeLog :=
  let r := pruneSections skipRoutes config.sections log
  ({ config with sections := r.1 }, r.2)

/-- The missing-file scan over one entry list. -/
def missingScanItems (seen skip : List String) :
    List NavItem → List String → List String
  | [], missing => missing
  | item :: rest, missing =>
    if !(seen.contains item.to') && !(skip.contains item.to') then
      missingScanItems seen skip rest (pushUnique missing item.to')
    else missingScanItems seen skip rest missing

/-- The missing-file scan over the framework groups of one section. -/
def missingScanFrameworks (seen skip : List String) :
    List FrameworkGroup → List String → List String
  | [], missing => missing
  | fw :: rest, missing =>
    missingScanFrameworks seen skip rest (missingScanItems seen skip fw.children missing)

/-- The missing-file scan over a section list. -/
def missingScanSections (seen skip : List String) :
    List Section → List String → List String
  | [], missing => missing
  | s :: rest, missing =>
    let m1 := missingScanItems seen skip s.children missing
    let m2 :=
      match s.frameworks with
      | none => m1
      | some fws => missingScanFrameworks seen skip fws m1
    missingScanSections seen skip rest m2

/-- The missing-file scan over the whole (already pruned) config. -/
def missingScan (config : DocsConfig) (seen skip : List String) (log : ChangeLog) :
    ChangeLog :=
  { log with missingFiles := missingScanSections seen skip config.sections log.missingFiles }

/-- The result of one pass over one root. -/
structure RunResult where
  config : DocsConfig
  log : ChangeLog
  cache : Cache
deriving DecidableEq, Repr

/-- The per-file loop of processDocsConfig. -/
def runLoop (fs : FS) (dir configPath : String) (index : PlacementIndex)
    (st : SyncState) (files : List String) : SyncState :=
  files.foldl (cachedStep fs dir configPath index) st

/-- processDocsConfig from the source: read the config (here: passed
in), build the index, scan the files, prune skipped routes, detect
missing files, persist the config (here: returned). -/
def processDocsConfig (fs : FS) (dir : String) (config : DocsConfig) (cache : Cache) :
    RunResult :=
  let configPath := dir ++ "/config.json"
  let index := buildPlacementIndex config
  let files := listContentFiles fs dir
  let st := runLoop fs dir configPath index ⟨{ config := config }, cache⟩ files
  let pr := pruneConfig st.pure.config st.pure.skipRoutes st.pure.log
  let log := missingScan pr.1 st.pure.seenRoutes st.pure.skipRoutes pr.2
  ⟨pr.1, log, st.cache⟩

/-- Iterated passes over the same root: the config and cache after n
consecutive runs of processDocsConfig. -/
def iterRuns (fs : FS) (dir : String) : Nat → DocsConfig → Cache → DocsConfig × Cache
  | 0, config, cache => (config, cache)
  | n + 1, config, cache =>
    let r := processDocsConfig fs dir config cache
    iterRuns fs dir n r.config r.cache

/-! ### Lemmas: the JS collection models -/

theorem contains_iff {l : List String} {x : String} : l.contains x = true ↔ x ∈ l :=
  List.elem_iff

theorem mapGet_mapSet_self {α : Type} (m : List (String × α)) (k : String) (v : α) :
    mapGet (mapSet m k v) k = some v := by
  induction m with
  | nil => simp [mapSet, mapGet]
  | cons kv rest ih =>
    by_cases h : kv.1 = k
    · simp [mapSet, mapGet, h]
    · simpa [mapSet, mapGet, h] using ih

theorem mapGet_mapSet_of_ne {α : Type} (m : List (String × α)) {k k' : String} (v : α)
    (h : k ≠ k') : mapGet (mapSet m k v) k' = mapGet m k' := by
  induction m with
  | nil => simp [mapSet, mapGet, h]
  | cons kv rest ih =>
    by_cases hk : kv.1 = k
    · simp [mapSet, mapGet, hk, h]
    · simp [mapSet, mapGet, hk, ih]

theorem mem_pushUnique (l : List String) (v : String) : v ∈ pushUnique l v := by
  unfold pushUnique
  by_cases h : v ∈ l <;> simp [h]

theorem mem_pushUnique_of_mem (l : List String) (v x : String) (h : x ∈ l) :
    x ∈ pushUnique l v := by
  unfold pushUnique
  by_cases hc : v ∈ l <;> simp [hc, h]

theorem mem_setAdd (s : List String) (x : String) : x ∈ setAdd s x := by
  unfold setAdd
  by_cases h : x ∈ s <;> simp [h]

theorem mem_setAdd_of_mem (s : List String) (v x : String) (h : x ∈ s) : x ∈ setAdd s v := by
  unfold setAdd
  by_cases hc : v ∈ s <;> simp [hc, h]

theorem mem_of_mem_setAdd {s : List String} {v x : String} (h : x ∈ setAdd s v) :
    x ∈ s ∨ x = v := by
  unfold setAdd at h
  by_cases hc : v ∈ s
  · simp [hc] at h; exact Or.inl h
  · simpa [hc] using h

/-! ### Lemmas: containers and config mutation -/

/-- A placement that addresses an actual container of the config. -/
def locValid (config : DocsConfig) (p : Placement) : Prop :=
  match config.sections.get? p.sectionIdx with
  | none => False
  | some s =>
    match p.frameworkIdx with
    | none => True
    | some j =>
      match s.frameworks with
      | none => False
      | some fws => j < fws.length

theorem get?_listModify {α : Type} (f : α → α) (n : Nat) (l : List α) (m : Nat) :
    (listModify f n l)[m]? = if m = n then l[m]?.map f else l[m]? := by
  induction l generalizing n m with
  | nil => simp [listModify]
  | cons x rest ih =>
    cases n with
    | zero => cases m with
      | zero => simp [listModify]
      | succ m => simp [listModify]
    | succ n => cases m with
      | zero => simp [listModify]
      | succ m => simpa [listModify, Nat.succ_inj] using ih n m

theorem containerAt_update_of_ne (config : DocsConfig) (p : Placement) (c : List NavItem)
    (q : Placement) (h : q ≠ p) :
    containerAt (updateContainer config p c) q = containerAt config q := by
  unfold containerAt updateContainer
  simp only [List.get?_eq_getElem?, get?_listModify]
  by_cases hs : q.sectionIdx = p.sectionIdx
  · rw [if_pos hs]
    cases hget : config.sections[q.sectionIdx]? with
    | none => simp
    | some s =>
      have hfw : q.frameworkIdx ≠ p.frameworkIdx := by
        intro he; exact h (by cases q; cases p; simp_all)
      cases hpf : p.frameworkIdx with
      | none =>
        cases hqf : q.frameworkIdx with
        | none => exact absurd (hqf ▸ hpf ▸ rfl) hfw
        | some j => simp [hpf, hqf]
      | some j =>
        cases hqf : q.frameworkIdx with
        | none => simp [hpf, hqf]
        | some j' =>
          have hj : j' ≠ j := by
            intro he; exact hfw (by rw [hqf, hpf, he])
          simp only [hpf, hqf, Option.map]
          cases hf : s.frameworks with
          | none => simp
          | some fws => simp [List.get?_eq_getElem?, get?_listModify, hj]
  · rw [if_neg hs]

theorem containerAt_update_self (config : DocsConfig) (p : Placement) (c : List NavItem)
    (h : locValid config p) :
    containerAt (updateContainer config p c) p = c := by
  unfold locValid at h
  unfold containerAt updateContainer
  simp only [List.get?_eq_getElem?, get?_listModify, if_pos rfl] at h ⊢
  cases hget : config.sections[p.sectionIdx]? with
  | none => simp only [hget] at h
  | some s =>
    simp only [hget] at h
    simp only [hget, Option.map]
    cases hpf : p.frameworkIdx with
    | none => simp
    | some j =>
      simp only [hpf] at h
      cases hf : s.frameworks with
      | none => simp only [hf] at h
      | some fws =>
        simp only [hf] at h
        simp only [Option.map, List.get?_eq_getElem?, get?_listModify, if_pos rfl]
        cases hj : fws[j]? with
        | none =>
          rw [List.getElem?_eq_none_iff] at hj
          omega
        | some fw => simp [get?_listModify, hj]

theorem containerAt_update_cases (config : DocsConfig) (p : Placement) (c : List NavItem)
    (q : Placement) :
    containerAt (updateContainer config p c) q = containerAt config q ∨
      containerAt (updateContainer config p c) q = c := by
  by_cases hq : q = p
  · subst hq
    by_cases hv : locValid config q
    · exact Or.inr (containerAt_update_self config q c hv)
    · left
      unfold locValid at hv
      unfold containerAt updateContainer
      simp only [List.get?_eq_getElem?, get?_listModify, if_pos rfl] at hv ⊢
      cases hget : config.sections[q.sectionIdx]? with
      | none => simp [hget]
      | some s =>
        simp only [hget] at hv
        simp only [hget, Option.map]
        cases hqf : q.frameworkIdx with
        | none => simp only [hqf] at hv; exact absurd trivial hv
        | some j =>
          simp only [hqf] at hv
          cases hf : s.frameworks with
          | none => simp [hf]
          | some fws =>
            simp only [hf] at hv
            simp only [hf, Option.map, List.get?_eq_getElem?, get?_listModify, if_pos rfl]
            cases hj : fws[j]? with
            | none => simp [get?_listModify, hj]
            | some fw =>
              have hlt : j < fws.length := by
                by_contra hlen
                rw [List.getElem?_eq_none_iff.mpr (by omega)] at hj
                exact Option.noConfusion hj
              exact absurd hlt hv
  · exact Or.inl (containerAt_update_of_ne config p c q hq)

/-! ### Lemmas: ensureNavItem -/

/-- Entries with pairwise distinct routes. -/
def distinctTos (container : List NavItem) : Prop :=
  container.Pairwise (fun a b => a.to' ≠ b.to')

/-- Distinctness in every container of the config. -/
def navDistinct (config : DocsConfig) : Prop :=
  ∀ p : Placement, distinctTos (containerAt config p)

theorem ensureNavItem_of_mem (container : List NavItem) (item : NavItem) (log : ChangeLog)
    (h : ∃ e ∈ container, e.to' = item.to') :
    (ensureNavItem container item log).1 = container := by
  obtain ⟨e, he, heq⟩ := h
  unfold ensureNavItem
  cases hf : container.find? (fun entry => entry.to' == item.to') with
  | none =>
    rw [List.find?_eq_none] at hf
    exact absurd (by simpa using heq) (by simpa using hf e he)
  | some ex => by_cases hl : ex.label ≠ item.label <;> simp [hl]

theorem ensureNavItem_of_not_mem (container : List NavItem) (item : NavItem) (log : ChangeLog)
    (h : ∀ e ∈ container, e.to' ≠ item.to') :
    (ensureNavItem container item log).1 = container ++ [item] := by
  unfold ensureNavItem
  cases hf : container.find? (fun entry => entry.to' == item.to') with
  | none => simp
  | some ex =>
    have hex := List.find?_some hf
    have hmem := List.mem_of_find?_eq_some hf
    exact absurd (by simpa using hex) (h ex hmem)

theorem ensureNavItem_distinct (container : List NavItem) (item : NavItem) (log : ChangeLog)
    (h : distinctTos container) : distinctTos (ensureNavItem container item log).1 := by
  unfold ensureNavItem
  cases hf : container.find? (fun entry => entry.to' == item.to') with
  | none =>
    rw [List.find?_eq_none] at hf
    refine List.pairwise_append.mpr ⟨h, List.pairwise_singleton _ _, ?_⟩
    intro a ha b hb
    rw [List.mem_singleton] at hb
    subst hb
    simpa using hf a ha
  | some ex => by_cases hl : ex.label ≠ item.label <;> simp [hl, h]

/-! ### Lemmas: removeSkipped and the pruning pass -/

theorem removeSkippedList_fst (container : List NavItem) (skipped : List String) :
    (removeSkippedList container skipped).1 =
      container.filter (fun e => !(skipped.contains e.to')) := by
  induction container with
  | nil => rfl
  | cons e rest ih =>
    unfold removeSkippedList
    by_cases h : e.to' ∈ skipped <;> simp [h, ih, List.filter_cons]

theorem pruneSection_fst (skipRoutes : List String) (s : Section) (log : ChangeLog) :
    (pruneSection skipRoutes s log).1 =
      { s with
        children := (removeSkippedList s.children skipRoutes).1,
        frameworks := s.frameworks.map (List.map (fun fw =>
          { fw with children := (removeSkippedList fw.children skipRoutes).1 })) } := by
  have key : ∀ (l : List FrameworkGroup) (lg : ChangeLog),
      (pruneFrameworks skipRoutes l lg).1 = l.map (fun fw =>
        { fw with children := (removeSkippedList fw.children skipRoutes).1 }) := by
    intro l
    induction l with
    | nil => intro lg; rfl
    | cons fw rest ih => intro lg; simp [pruneFrameworks, removeSkipped, ih]
  unfold pruneSection
  cases hf : s.frameworks with
  | none => simp [removeSkipped, hf]
  | some fws => simp [removeSkipped, hf, key]

theorem pruneConfig_fst (config : DocsConfig) (skipRoutes : List String) (log : ChangeLog) :
    (pruneConfig config skipRoutes log).1 =
      { config with sections := config.sections.map (fun s =>
          { s with
            children := (removeSkippedList s.children skipRoutes).1,
            frameworks := s.frameworks.map (List.map (fun fw =>
              { fw with children := (removeSkippedList fw.children skipRoutes).1 })) }) } := by
  have key : ∀ (l : List Section) (lg : ChangeLog),
      (pruneSections skipRoutes l lg).1 = l.map (fun s =>
        { s with
          children := (removeSkippedList s.children skipRoutes).1,
          frameworks := s.frameworks.map (List.map (fun fw =>
            { fw with children := (removeSkippedList fw.children skipRoutes).1 })) }) := by
    intro l
    induction l with
    | nil => intro lg; rfl
    | cons s0 rest ih => intro lg; simp [pruneSections, ih, pruneSection_fst]
  unfold pruneConfig
  simp [key]

theorem containerAt_prune (config : DocsConfig) (skipRoutes : List String) (log : ChangeLog)
    (q : Placement) :
    containerAt (pruneConfig config skipRoutes log).1 q =
      (removeSkippedList (containerAt config q) skipRoutes).1 := by
  rw [pruneConfig_fst]
  unfold containerAt
  simp only [List.get?_eq_getElem?, List.getElem?_map]
  cases hget : config.sections[q.sectionIdx]? with
  | none => rfl
  | some s =>
    simp only [Option.map]
    cases hqf : q.frameworkIdx with
    | none => rfl
    | some j =>
      cases hf : s.frameworks with
      | none => rfl
      | some fws =>
        simp only [Option.map, List.getElem?_map]
        cases hj : fws[j]? with
        | none => rfl
        | some fw => rfl

/-- Executable check of route distinctness in one container. -/
def distinctTosB : List NavItem → Bool
  | [] => true
  | e :: rest => rest.all (fun x => x.to' != e.to') && distinctTosB rest

/-- Executable check of route distinctness in every container. -/
def navDistinctB (config : DocsConfig) : Bool :=
  config.sections.all (fun s =>
    distinctTosB s.children &&
      (match s.frameworks with
       | none => true
       | some fws => fws.all (fun fw => distinctTosB fw.children)))

theorem distinctTos_of_B {c : List NavItem} (h : distinctTosB c = true) : distinctTos c := by
  induction c with
  | nil => exact List.Pairwise.nil
  | cons e rest ih =>
    unfold distinctTosB at h
    rw [Bool.and_eq_true, List.all_eq_true] at h
    refine List.Pairwise.cons (fun b hb => ?_) (ih h.2)
    have := h.1 b hb
    simp only [bne_iff_ne, ne_eq] at this
    exact fun he => this he.symm

theorem navDistinct_of_B {config : DocsConfig} (h : navDistinctB config = true) :
    navDistinct config := by
  intro p
  unfold navDistinctB at h
  rw [List.all_eq_true] at h
  unfold containerAt
  cases hget : config.sections.get? p.sectionIdx with
  | none => exact List.Pairwise.nil
  | some s =>
    have hs := h s (by
      have := List.get?_eq_some.mp hget
      obtain ⟨hlt, hg⟩ := this
      exact hg ▸ List.get_mem _ _ _)
    rw [Bool.and_eq_true] at hs
    cases hqf : p.frameworkIdx with
    | none => exact distinctTos_of_B hs.1
    | some j =>
      cases hf : s.frameworks with
      | none => simp only [hf]; exact List.Pairwise.nil
      | some fws =>
        cases hj : fws.get? j with
        | none => simp only [hf, hj]; exact List.Pairwise.nil
        | some fw =>
          have hmem : fw ∈ fws := by
            obtain ⟨hlt, hg⟩ := List.get?_eq_some.mp hj
            exact hg ▸ List.get_mem _ _ _
          have hall := hs.2
          rw [hf] at hall
          rw [List.all_eq_true] at hall
          simp only [hf, hj]
          exact distinctTos_of_B (hall fw hmem)

theorem classifyStep_navDistinct (dir : String) (index : PlacementIndex) (st : PureState)
    (filePath route : String) (fm : Option FrontmatterInfo)
    (h : navDistinct st.config) :
    navDistinct (classifyStep dir index st filePath route fm).config := by
  cases fm with
  | none => exact h
  | some frontmatter =>
    simp only [classifyStep]
    cases hT : (!strTruthy frontmatter.title) with
    | true => exact h
    | false =>
      by_cases hS : frontmatter.skip = some true
      · simp only [if_pos hS]; exact h
      · simp only [if_neg hS]
        cases hp : findPlacement route index with
        | none => exact h
        | some placement =>
          intro q
          show distinctTos (containerAt (updateContainer st.config placement
            (ensureNavItem (containerAt st.config placement)
              ⟨String.mk (trimChars (frontmatter.title.getD "").toList), route, none⟩ st.log).1) q)
          rcases containerAt_update_cases st.config placement
              (ensureNavItem (containerAt st.config placement)
                ⟨String.mk (trimChars (frontmatter.title.getD "").toList), route, none⟩ st.log).1 q
            with hc | hc
          · rw [hc]; exact h q
          · rw [hc]
            exact ensureNavItem_distinct _ _ _ (h placement)

theorem cachedStep_navDistinct (fs : FS) (dir configPath : String) (index : PlacementIndex)
    (st : SyncState) (filePath : String) (h : navDistinct st.pure.config) :
    navDistinct (cachedStep fs dir configPath index st filePath).pure.config := by
  unfold cachedStep
  by_cases hc : filePath = configPath
  · simp only [if_pos hc]; exact h
  · simp only [if_neg hc]
    cases hr : (isReadme (basename filePath) || isDraft (basename filePath)) with
    | true => exact h
    | false => exact classifyStep_navDistinct _ _ _ _ _ _ h

theorem runLoop_navDistinct (fs : FS) (dir configPath : String) (index : PlacementIndex)
    (st : SyncState) (files : List String) (h : navDistinct st.pure.config) :
    navDistinct (runLoop fs dir configPath index st files).pure.config := by
  induction files generalizing st with
  | nil => exact h
  | cons p rest ih =>
    exact ih _ (cachedStep_navDistinct fs dir configPath index st p h)

theorem removeSkippedList_distinct (c : List NavItem) (skip : List String)
    (h : distinctTos c) : distinctTos (removeSkippedList c skip).1 := by
  rw [removeSkippedList_fst]
  exact List.Pairwise.sublist (List.filter_sublist c) h

theorem processDocsConfig_navDistinct (fs : FS) (dir : String) (config : DocsConfig)
    (cache : Cache) (h : navDistinct config) :
    navDistinct (processDocsConfig fs dir config cache).config := by
  unfold processDocsConfig
  intro q
  simp only
  rw [containerAt_prune]
  exact removeSkippedList_distinct _ _
    (runLoop_navDistinct fs dir (dir ++ "/config.json") (buildPlacementIndex config)
      ⟨{ config := config }, cache⟩ (listContentFiles fs dir) h q)

theorem iterRuns_navDistinct (fs : FS) (dir : String) (n : Nat) (config : DocsConfig)
    (cache : Cache) (h : navDistinct config) :
    navDistinct (iterRuns fs dir n config cache).1 := by
  induction n generalizing config cache with
  | zero => exact h
  | succ n ih => exact ih _ _ (processDocsConfig_navDistinct fs dir config cache h)

/-! ### Claim C5 -/

/-- C5: ref inheritance.  A file whose frontmatter has only
ref: ./other.md and no title, where other.md has title Foo, resolves to
title Foo; when other.md additionally has skip: true, the referencing
file also resolves skip = true, and a full pass treats it as
skip-eligible (route recorded under skipped). -/
theorem c5_ref_inheritance :
    (readDocInfo [("/docs/r/a.md", "---\nref: ./other.md\n---\nbody"),
        ("/docs/r/other.md", "---\ntitle: Foo\n---\nbody")] "/docs/r" "/docs/r/a.md" []).1 =
      some { title := some "Foo", skip := none, ref := some "./other.md" } ∧
    (readDocInfo [("/docs/r/a.md", "---\nref: ./other.md\n---\nbody"),
        ("/docs/r/other.md", "---\ntitle: Foo\nskip: true\n---\nbody")] "/docs/r"
        "/docs/r/a.md" []).1 =
      some { title := some "Foo", skip := some true, ref := some "./other.md" } ∧
    (processDocsConfig [("/docs/r/a.md", "---\nref: ./other.md\n---\nbody"),
        ("/docs/r/other.md", "---\ntitle: Foo\nskip: true\n---\nbody")] "/docs/r"
        { sections := [{ label := "G", children := [⟨"A", "a", none⟩] }] } []).log.skipped =
      ["a", "other"] := by
  refine ⟨by decide, by decide, by decide⟩

/-! ### Claim C10 -/

/-- C10: a frontmatter title equal to the empty string behaves exactly
like an absent title: the reconciler records the file under
missingFrontmatter, leaves the config untouched, and the per-file step
coincides with the step for the same info with no title at all
(readme/draft files never reach the title check, hence the
hypotheses). -/
theorem c10_empty_title (fs : FS) (dir configPath : String) (index : PlacementIndex)
    (st : SyncState) (filePath : String) (info : FrontmatterInfo) (c2 : Cache)
    (hcfg : filePath ≠ configPath)
    (hname : (isReadme (basename filePath) || isDraft (basename filePath)) = false)
    (hread : readDocInfo fs dir filePath st.cache = (some info, c2))
    (htitle : info.title = some "") :
    cachedStep fs dir configPath index st filePath =
      ⟨{ st.pure with
         seenRoutes := setAdd st.pure.seenRoutes (routeFromFile dir filePath),
         log := { st.pure.log with
                  missingFrontmatter := pushUnique st.pure.log.missingFrontmatter
                    (relativePath dir filePath) } }, c2⟩ ∧
    (∀ (st' : PureState) (route : String),
        classifyStep dir index st' filePath route (some info) =
          classifyStep dir index st' filePath route (some { info with title := none })) := by
  have hT : strTruthy info.title = false := by rw [htitle]; simp [strTruthy]
  constructor
  · unfold cachedStep
    rw [if_neg hcfg]
    simp only [hname, Bool.false_eq_true, if_false, hread, classifyStep, hT]
    simp
  · intro st' route
    simp [classifyStep, htitle, strTruthy]

/-- Witness for C10 at a concrete input: a file with title set to the
empty string is recorded under missingFrontmatter. -/
theorem c10_empty_title_witness :
    cachedStep [("/docs/r/e.md", "---\ntitle: \"\"\n---\n")] "/docs/r" "/docs/r/config.json"
        (buildPlacementIndex { sections := [] })
        ⟨{ config := { sections := [] } }, []⟩ "/docs/r/e.md" =
      ⟨{ config := { sections := [] },
         log := { missingFrontmatter := ["e.md"] },
         seenRoutes := ["e"] },
        [("/docs/r/e.md", some { title := some "", skip := none, ref := none })]⟩ :=
  (c10_empty_title [("/docs/r/e.md", "---\ntitle: \"\"\n---\n")] "/docs/r" "/docs/r/config.json"
    (buildPlacementIndex { sections := [] }) ⟨{ config := { sections := [] } }, []⟩
    "/docs/r/e.md" { title := some "", skip := none, ref := none }
    [("/docs/r/e.md", some { title := some "", skip := none, ref := none })]
    (by decide) (by decide) (by decide) (by decide)).1

/-! ### Claim C2 -/

/-- C2: container uniqueness.  ensureNavItem preserves pairwise
distinct routes; when an entry with the incoming route exists the
container is returned unchanged (labels included); otherwise the item
is appended at the end.  Consequently every container of a config with
distinct routes still has distinct routes after any number of runs. -/
theorem c2_uniqueness :
    (∀ (container : List NavItem) (item : NavItem) (log : ChangeLog),
        distinctTos container →
          distinctTos (ensureNavItem container item log).1 ∧
          ((∃ e ∈ container, e.to' = item.to') →
            (ensureNavItem container item log).1 = container) ∧
          ((∀ e ∈ container, e.to' ≠ item.to') →
            (ensureNavItem container item log).1 = container ++ [item])) ∧
    (∀ (fs : FS) (dir : String) (config : DocsConfig) (cache : Cache) (n : Nat),
        navDistinct config → navDistinct (iterRuns fs dir n config cache).1) := by
  constructor
  · intro container item log hd
    exact ⟨ensureNavItem_distinct container item log hd,
      ensureNavItem_of_mem container item log,
      ensureNavItem_of_not_mem container item log⟩
  · intro fs dir config cache n h
    exact iterRuns_navDistinct fs dir n config cache h

/-- Witness for C2 at concrete inputs. -/
theorem c2_uniqueness_witness :
    distinctTos (ensureNavItem [⟨"Guide", "guide", none⟩] ⟨"Intro", "guide/intro", none⟩ {}).1 ∧
    navDistinct (iterRuns [("/docs/r/guide/intro.md", "---\ntitle: Intro\n---\n")] "/docs/r" 2
      { sections := [{ label := "G", children := [⟨"Guide", "guide", none⟩] }] } []).1 :=
  ⟨(c2_uniqueness.1 [⟨"Guide", "guide", none⟩] ⟨"Intro", "guide/intro", none⟩ {}
      (by simp [distinctTos])).1,
    c2_uniqueness.2 [("/docs/r/guide/intro.md", "---\ntitle: Intro\n---\n")] "/docs/r"
      { sections := [{ label := "G", children := [⟨"Guide", "guide", none⟩] }] } [] 2
      (navDistinct_of_B (by decide))⟩

/-! ### Lemmas: the per-file loop only appends to containers -/

theorem ensureNavItem_extends (container : List NavItem) (item : NavItem) (log : ChangeLog) :
    (ensureNavItem container item log).1 = container ∨
      (ensureNavItem container item log).1 = container ++ [item] := by
  unfold ensureNavItem
  cases hf : container.find? (fun entry => entry.to' == item.to') with
  | none => exact Or.inr rfl
  | some ex => by_cases hl : ex.label ≠ item.label <;> simp [hl]

theorem classifyStep_extends (dir : String) (index : PlacementIndex) (st : PureState)
    (filePath route : String) (fm : Option FrontmatterInfo) (q : Placement) :
    ∃ A, containerAt (classifyStep dir index st filePath route fm).config q =
      containerAt st.config q ++ A := by
  cases fm with
  | none => exact ⟨[], by rw [List.append_nil]; rfl⟩
  | some frontmatter =>
    simp only [classifyStep]
    cases hT : (!strTruthy frontmatter.title) with
    | true => exact ⟨[], by rw [List.append_nil]; rfl⟩
    | false =>
      by_cases hS : frontmatter.skip = some true
      · simp only [if_pos hS]
        exact ⟨[], by rw [List.append_nil]; rfl⟩
      · simp only [if_neg hS]
        cases hp : findPlacement route index with
        | none => exact ⟨[], by rw [List.append_nil]; rfl⟩
        | some placement =>
          show ∃ A, containerAt (updateContainer st.config placement
              (ensureNavItem (containerAt st.config placement)
                ⟨String.mk (trimChars (frontmatter.title.getD "").toList), route, none⟩
                st.log).1) q = containerAt st.config q ++ A
          by_cases hq : q = placement
          · subst hq
            rcases containerAt_update_cases st.config q
                (ensureNavItem (containerAt st.config q)
                  ⟨String.mk (trimChars (frontmatter.title.getD "").toList), route, none⟩
                  st.log).1 q with hc | hc
            · exact ⟨[], by rw [hc, List.append_nil]⟩
            · rcases ensureNavItem_extends (containerAt st.config q)
                  ⟨String.mk (trimChars (frontmatter.title.getD "").toList), route, none⟩
                  st.log with he | he
              · exact ⟨[], by rw [hc, he, List.append_nil]⟩
              · exact ⟨_, by rw [hc, he]⟩
          · exact ⟨[], by rw [containerAt_update_of_ne _ _ _ _ hq, List.append_nil]⟩

theorem cachedStep_extends (fs : FS) (dir configPath : String) (index : PlacementIndex)
    (st : SyncState) (filePath : String) (q : Placement) :
    ∃ A, containerAt (cachedStep fs dir configPath index st filePath).pure.config q =
      containerAt st.pure.config q ++ A := by
  unfold cachedStep
  by_cases hc : filePath = configPath
  · simp only [if_pos hc]; exact ⟨[], by simp⟩
  · simp only [if_neg hc]
    cases hr : (isReadme (basename filePath) || isDraft (basename filePath)) with
    | true => exact ⟨[], by simp⟩
    | false => exact classifyStep_extends _ _ _ _ _ _ q

theorem runLoop_extends (fs : FS) (dir configPath : String) (index : PlacementIndex)
    (st : SyncState) (files : List String) (q : Placement) :
    ∃ A, containerAt (runLoop fs dir configPath index st files).pure.config q =
      containerAt st.pure.config q ++ A := by
  induction files generalizing st with
  | nil => exact ⟨[], by simp [runLoop]⟩
  | cons p rest ih =>
    obtain ⟨A1, h1⟩ := cachedStep_extends fs dir configPath index st p q
    obtain ⟨A2, h2⟩ := ih (cachedStep fs dir configPath index st p)
    exact ⟨A1 ++ A2, by
      show containerAt (runLoop fs dir configPath index
        (cachedStep fs dir configPath index st p) rest).pure.config q = _
      rw [h2, h1, List.append_assoc]⟩

/-! ### Lemmas: the missing-file scan -/

theorem missingScanItems_mono (seen skip : List String) (items : List NavItem)
    (missing : List String) (x : String) (h : x ∈ missing) :
    x ∈ missingScanItems seen skip items missing := by
  induction items generalizing missing with
  | nil => exact h
  | cons item rest ih =>
    unfold missingScanItems
    by_cases hc : (!(seen.contains item.to') && !(skip.contains item.to')) = true
    · rw [if_pos hc]; exact ih _ (mem_pushUnique_of_mem _ _ _ h)
    · rw [if_neg hc]; exact ih _ h

theorem missingScanItems_mem (seen skip : List String) (items : List NavItem)
    (missing : List String) (e : NavItem) (hmem : e ∈ items)
    (hseen : e.to' ∉ seen) (hskip : e.to' ∉ skip) :
    e.to' ∈ missingScanItems seen skip items missing := by
  induction items generalizing missing with
  | nil => cases hmem
  | cons item rest ih =>
    unfold missingScanItems
    rcases List.mem_cons.mp hmem with he | he
    · subst he
      rw [if_pos (by
        simp only [Bool.and_eq_true, Bool.not_eq_true']
        exact ⟨by simpa [contains_iff] using hseen, by simpa [contains_iff] using hskip⟩)]
      exact missingScanItems_mono _ _ _ _ _ (mem_pushUnique _ _)
    · by_cases hc : (!(seen.contains item.to') && !(skip.contains item.to')) = true
      · rw [if_pos hc]; exact ih _ he
      · rw [if_neg hc]; exact ih _ he

theorem missingScanFrameworks_mono (seen skip : List String) (fws : List FrameworkGroup)
    (missing : List String) (x : String) (h : x ∈ missing) :
    x ∈ missingScanFrameworks seen skip fws missing := by
  induction fws generalizing missing with
  | nil => exact h
  | cons fw rest ih =>
    exact ih _ (missingScanItems_mono _ _ _ _ _ h)

theorem missingScanFrameworks_mem (seen skip : List String) (fws : List FrameworkGroup)
    (missing : List String) (fw : FrameworkGroup) (e : NavItem)
    (hfw : fw ∈ fws) (hmem : e ∈ fw.children)
    (hseen : e.to' ∉ seen) (hskip : e.to' ∉ skip) :
    e.to' ∈ missingScanFrameworks seen skip fws missing := by
  induction fws generalizing missing with
  | nil => cases hfw
  | cons fw0 rest ih =>
    rcases List.mem_cons.mp hfw with he | he
    · subst he
      exact missingScanFrameworks_mono seen skip rest
        (missingScanItems seen skip fw.children missing) e.to'
        (missingScanItems_mem seen skip fw.children missing e hmem hseen hskip)
    · exact ih _ he

theorem missingScanSections_mono (seen skip : List String) (sections : List Section)
    (missing : List String) (x : String) (h : x ∈ missing) :
    x ∈ missingScanSections seen skip sections missing := by
  induction sections generalizing missing with
  | nil => exact h
  | cons s0 rest ih =>
    unfold missingScanSections
    cases hfr : s0.frameworks with
    | none => exact ih _ (missingScanItems_mono _ _ _ _ _ h)
    | some fws =>
      exact ih _ (missingScanFrameworks_mono _ _ _ _ _ (missingScanItems_mono _ _ _ _ _ h))

theorem missingScanSections_mem (seen skip : List String) (sections : List Section)
    (missing : List String) (s : Section) (e : NavItem) (hs : s ∈ sections)
    (hmem : e ∈ s.children ∨ ∃ fws, s.frameworks = some fws ∧ ∃ fw ∈ fws, e ∈ fw.children)
    (hseen : e.to' ∉ seen) (hskip : e.to' ∉ skip) :
    e.to' ∈ missingScanSections seen skip sections missing := by
  induction sections generalizing missing with
  | nil => cases hs
  | cons s0 rest ih =>
    unfold missingScanSections
    rcases List.mem_cons.mp hs with he | he
    · subst he
      rcases hmem with hch | ⟨fws, hf, fw, hfw, hch⟩
      · have h1 : e.to' ∈ missingScanItems seen skip s.children missing :=
          missingScanItems_mem _ _ _ _ _ hch hseen hskip
        cases hfr : s.frameworks with
        | none => exact missingScanSections_mono _ _ _ _ _ h1
        | some fws =>
          exact missingScanSections_mono _ _ _ _ _
            (missingScanFrameworks_mono _ _ _ _ _ h1)
      · rw [hf]
        exact missingScanSections_mono _ _ _ _ _
          (missingScanFrameworks_mem _ _ _ _ _ _ hfw hch hseen hskip)
    · cases hfr : s0.frameworks with
      | none => exact ih _ he
      | some fws => exact ih _ he

/-- The state after the per-file loop of one pass (the components
processDocsConfig composes). -/
def loopState (fs : FS) (dir : String) (config : DocsConfig) (cache : Cache) : SyncState :=
  runLoop fs dir (dir ++ "/config.json") (buildPlacementIndex config)
    ⟨{ config := config }, cache⟩ (listContentFiles fs dir)

theorem containerAt_mem_section (config : DocsConfig) (q : Placement) (e : NavItem)
    (h : e ∈ containerAt config q) :
    ∃ s ∈ config.sections,
      e ∈ s.children ∨ ∃ fws, s.frameworks = some fws ∧ ∃ fw ∈ fws, e ∈ fw.children := by
  unfold containerAt at h
  cases hget : config.sections.get? q.sectionIdx with
  | none => simp only [hget] at h; cases h
  | some s =>
    simp only [hget] at h
    refine ⟨s, ?_, ?_⟩
    · obtain ⟨hlt, hgeq⟩ := List.get?_eq_some.mp hget
      exact hgeq ▸ List.get_mem _ _ _
    · cases hqf : q.frameworkIdx with
      | none => simp only [hqf] at h; exact Or.inl h
      | some j =>
        simp only [hqf] at h
        cases hf : s.frameworks with
        | none => simp only [hf] at h; cases h
        | some fws =>
          simp only [hf] at h
          cases hj : fws.get? j with
          | none => simp only [hj] at h; cases h
          | some fw =>
            simp only [hj] at h
            refine Or.inr ⟨fws, rfl, fw, ?_, h⟩
            obtain ⟨hlt, hgeq⟩ := List.get?_eq_some.mp hj
            exact hgeq ▸ List.get_mem _ _ _

/-! ### Claim C6 -/

/-- C6: missing-file detection without deletion.  Every entry of the
config whose route the pass neither saw among the scanned files nor
marked skip-eligible is reported under missingFiles and is still
present in the persisted config, in the same container. -/
theorem c6_missing_files (fs : FS) (dir : String) (config : DocsConfig) (cache : Cache)
    (q : Placement) (e : NavItem)
    (hmem : e ∈ containerAt config q)
    (hseen : e.to' ∉ (loopState fs dir config cache).pure.seenRoutes)
    (hskip : e.to' ∉ (loopState fs dir config cache).pure.skipRoutes) :
    e.to' ∈ (processDocsConfig fs dir config cache).log.missingFiles ∧
      e ∈ containerAt (processDocsConfig fs dir config cache).config q := by
  obtain ⟨A, hA⟩ := runLoop_extends fs dir (dir ++ "/config.json") (buildPlacementIndex config)
    ⟨{ config := config }, cache⟩ (listContentFiles fs dir) q
  have hmem1 : e ∈ containerAt (loopState fs dir config cache).pure.config q := by
    show e ∈ containerAt (runLoop fs dir (dir ++ "/config.json") (buildPlacementIndex config)
      ⟨{ config := config }, cache⟩ (listContentFiles fs dir)).pure.config q
    rw [hA]
    exact List.mem_append_left _ hmem
  have hmem2 : e ∈ containerAt (processDocsConfig fs dir config cache).config q := by
    show e ∈ containerAt (pruneConfig (loopState fs dir config cache).pure.config
      (loopState fs dir config cache).pure.skipRoutes
      (loopState fs dir config cache).pure.log).1 q
    rw [containerAt_prune, removeSkippedList_fst, List.mem_filter]
    refine ⟨hmem1, ?_⟩
    simp only [Bool.not_eq_true']
    rw [← Bool.not_eq_true]
    simpa [contains_iff] using hskip
  refine ⟨?_, hmem2⟩
  obtain ⟨s, hs, hdisj⟩ := containerAt_mem_section _ q e hmem2
  show e.to' ∈ missingScanSections (loopState fs dir config cache).pure.seenRoutes
    (loopState fs dir config cache).pure.skipRoutes
    (pruneConfig (loopState fs dir config cache).pure.config
      (loopState fs dir config cache).pure.skipRoutes
      (loopState fs dir config cache).pure.log).1.sections
    (pruneConfig (loopState fs dir config cache).pure.config
      (loopState fs dir config cache).pure.skipRoutes
      (loopState fs dir config cache).pure.log).2.missingFiles
  exact missingScanSections_mem _ _ _ _ s e hs hdisj hseen hskip

/-- Witness for C6: a nav entry with no backing file is reported and
kept. -/
theorem c6_missing_files_witness :
    "guide/old" ∈ (processDocsConfig [] "/docs/r"
      { sections := [{ label := "G", children := [⟨"Old", "guide/old", none⟩] }] }
      []).log.missingFiles ∧
    (⟨"Old", "guide/old", none⟩ : NavItem) ∈ containerAt (processDocsConfig [] "/docs/r"
      { sections := [{ label := "G", children := [⟨"Old", "guide/old", none⟩] }] }
      []).config ⟨0, none⟩ :=
  c6_missing_files [] "/docs/r"
    { sections := [{ label := "G", children := [⟨"Old", "guide/old", none⟩] }] } []
    ⟨0, none⟩ ⟨"Old", "guide/old", none⟩ (by decide) (by decide) (by decide)

/-! ### Claim C7 -/

/-- Specification-side definition, following the spec's words for
byDir: the route belongs to the first registrant - the first
registration, in registration order, whose ancestor walk contains the
route; later registrations never overwrite it. -/
def firstRegistrant (a : String) (regs : List (String × Placement)) : Option Placement :=
  (regs.find? (fun rp => (chainRoutes rp.1).contains a)).map Prod.snd

theorem mapGet_chainFold (chain : List String) (p : Placement)
    (m : List (String × Placement)) (a : String) :
    mapGet (chain.foldl (fun m r => if mapHas m r then m else mapSet m r p) m) a =
      if a ∈ chain ∧ mapGet m a = none then some p else mapGet m a := by
  induction chain generalizing m with
  | nil => simp
  | cons r rest ih =>
    simp only [List.foldl_cons]
    rw [ih]
    by_cases hr : a = r
    · subst hr
      cases hm : mapGet m a with
      | some v =>
        have hhas : mapHas m a = true := by simp [mapHas, hm]
        simp [hhas, hm]
      | none =>
        have hhas : mapHas m a = false := by simp [mapHas, hm]
        simp [hhas, hm, mapGet_mapSet_self]
    · have hstep : mapGet (if mapHas m r then m else mapSet m r p) a = mapGet m a := by
        by_cases hh : mapHas m r
        · rw [if_pos hh]
        · rw [if_neg hh, mapGet_mapSet_of_ne m p (fun he => hr he.symm)]
      rw [hstep]
      by_cases hrest : a ∈ rest ∧ mapGet m a = none
      · rw [if_pos hrest, if_pos ⟨List.mem_cons_of_mem r hrest.1, hrest.2⟩]
      · rw [if_neg hrest, if_neg (fun hcl => hrest ⟨(List.mem_cons.mp hcl.1).resolve_left hr, hcl.2⟩)]

theorem mapGet_regsFold_byDir (regs : List (String × Placement)) (idx0 : PlacementIndex)
    (a : String) :
    mapGet ((regs.foldl (fun idx rp => registerRoute idx rp.1 rp.2) idx0).byDir) a =
      (mapGet idx0.byDir a).orElse (fun _ => firstRegistrant a regs) := by
  induction regs generalizing idx0 with
  | nil => simp [firstRegistrant]
  | cons rp rest ih =>
    simp only [List.foldl_cons]
    rw [ih]
    have h1 : mapGet (registerRoute idx0 rp.1 rp.2).byDir a =
        if a ∈ chainRoutes rp.1 ∧ mapGet idx0.byDir a = none then some rp.2
        else mapGet idx0.byDir a :=
      mapGet_chainFold _ _ _ _
    rw [h1]
    unfold firstRegistrant
    by_cases hc : a ∈ chainRoutes rp.1
    · have hcb : (chainRoutes rp.1).contains a = true := contains_iff.mpr hc
      cases hm : mapGet idx0.byDir a with
      | some v => simp [hc, hm, List.find?_cons, hcb]
      | none => simp [hc, hm, List.find?_cons, hcb]
    · have hcb : (chainRoutes rp.1).contains a = false := by
        rw [← Bool.not_eq_true]; simpa [contains_iff] using hc
      cases hm : mapGet idx0.byDir a with
      | some v => simp [hc, hm, List.find?_cons, hcb]
      | none => simp [hc, hm, List.find?_cons, hcb]

/-- C7: placement-index registration precedence.  For every config and
every route, the byDir map of the placement index holds exactly the
placement of the first registration (in registration order: sections in
order, direct children before framework groups) whose ancestor walk
contains that route - so each registered ancestor route is present, and
once claimed it is never overwritten by any later registration,
including a later exact-route one. -/
theorem c7_byDir_first_wins (config : DocsConfig) (a : String) :
    mapGet (buildPlacementIndex config).byDir a =
      firstRegistrant a (registrations config) := by
  unfold buildPlacementIndex
  rw [mapGet_regsFold_byDir]
  simp [mapGet]

/-! ### Claim C8: termination of the frontmatter reader -/

/-- A budget sufficient for every ref chain from the given in-progress
set: the readable files not yet in the set, plus slack for the final
two failing or cache-hitting calls. -/
def docBound (fs : FS) (stack : List String) : Nat :=
  ((fs.map Prod.fst).filter (fun k => !(stack.contains k))).length + 2

theorem mapGet_eq_none_of_not_mem {α : Type} (l : List (String × α)) (p : String)
    (h : p ∉ l.map Prod.fst) : mapGet l p = none := by
  induction l with
  | nil => rfl
  | cons kv rest ih =>
    unfold mapGet
    rw [List.map_cons, List.mem_cons] at h
    rw [if_neg (fun he => h (Or.inl he.symm))]
    exact ih (fun hm => h (Or.inr hm))

theorem filter_length_mono {α : Type} (p q : α → Bool) (h : ∀ x, p x = true → q x = true) :
    ∀ l : List α, (l.filter p).length ≤ (l.filter q).length := by
  intro l
  induction l with
  | nil => exact Nat.le_refl 0
  | cons x rest ih =>
    cases hp : p x with
    | true =>
      rw [List.filter_cons_of_pos hp, List.filter_cons_of_pos (h x hp)]
      simpa using ih
    | false =>
      rw [List.filter_cons_of_neg (by simp [hp])]
      cases hq : q x with
      | true =>
        rw [List.filter_cons_of_pos hq]
        exact Nat.le_trans ih (by simp)
      | false =>
        rw [List.filter_cons_of_neg (by simp [hq])]
        exact ih

theorem docBound_augment (fs : FS) (stack : List String) (r : String)
    (hm : r ∈ fs.map Prod.fst) (hs : r ∉ stack) :
    docBound fs (stack ++ [r]) < docBound fs stack := by
  unfold docBound
  have key : ∀ keys : List String, r ∈ keys →
      (keys.filter (fun k => !((stack ++ [r]).contains k))).length <
        (keys.filter (fun k => !(stack.contains k))).length := by
    intro keys
    induction keys with
    | nil => intro h; cases h
    | cons k rest ih =>
      intro hmem
      have hmono := filter_length_mono (fun k => !((stack ++ [r]).contains k))
        (fun k => !(stack.contains k))
        (fun x hx => by
          simp only [Bool.not_eq_true'] at hx ⊢
          rw [← Bool.not_eq_true] at hx ⊢
          intro hc
          exact hx (contains_iff.mpr (List.mem_append_left _ (contains_iff.mp hc)))) rest
      simp only [List.filter_cons]
      by_cases hk : k = r
      · subst hk
        have c1 : ((stack ++ [k]).contains k) = true := by
          exact contains_iff.mpr (List.mem_append_right _ (List.mem_singleton.mpr rfl))
        have c2 : (stack.contains k) = false := by
          rw [← Bool.not_eq_true]
          simpa [contains_iff] using hs
        rw [c1, c2]
        simp only [Bool.not_true, Bool.not_false]
        rw [if_neg (by decide), if_pos (by decide)]
        simp only [List.length_cons]
        omega
      · have hr : r ∈ rest := (List.mem_cons.mp hmem).resolve_left (fun he => hk he.symm)
        cases hsk : stack.contains k with
        | true =>
          have hak : (stack ++ [r]).contains k = true :=
            contains_iff.mpr (List.mem_append_left _ (contains_iff.mp hsk))
          simp only [hsk, hak, Bool.not_true, if_false]
          exact ih hr
        | false =>
          have hak : (stack ++ [r]).contains k = false := by
            rw [← Bool.not_eq_true]
            simp only [contains_iff, List.mem_append, List.mem_singleton]
            rintro (hin | he)
            · rw [← Bool.not_eq_true] at hsk
              exact hsk (contains_iff.mpr hin)
            · exact hk he
          simp only [hsk, hak, Bool.not_false, if_true, List.length_cons]
          have := ih hr
          omega
  have := key (fs.map Prod.fst) hm
  omega

theorem readDocInfoFuel_no_file (fs : FS) (dir p : String) (hp : p ∉ fs.map Prod.fst)
    (fuel : Nat) (hf : 1 ≤ fuel) (stack : List String) (c : Cache) :
    readDocInfoFuel fs dir fuel p stack c =
      match mapGet c (resolveOne p) with
      | some v => (v, c)
      | none => (none, mapSet c (resolveOne p) none) := by
  obtain ⟨m, rfl⟩ : ∃ m, fuel = m + 1 := ⟨fuel - 1, by omega⟩
  unfold readDocInfoFuel
  cases hc : mapGet c (resolveOne p) with
  | some v => rfl
  | none =>
    have hread : fsRead fs p = none := mapGet_eq_none_of_not_mem fs p hp
    rw [hread]

theorem followRef_congr (recur₁ recur₂ : String → List String → Cache → Option FrontmatterInfo × Cache)
    (filePath docsDir : String) (stack : List String) (cache : Cache) (info0 : FrontmatterInfo)
    (h : ∀ rp, rp ∉ stack →
      recur₁ rp (stack ++ [rp]) cache = recur₂ rp (stack ++ [rp]) cache) :
    followRef recur₁ filePath docsDir stack cache info0 =
      followRef recur₂ filePath docsDir stack cache info0 := by
  unfold followRef
  split
  · split
    · rfl
    · split
      · rfl
      · rename_i refPath hrp hguard
        have hnot : refPath ∉ stack := fun hmem => hguard (by
          rw [contains_iff.mpr hmem]
          simp)
        rw [h refPath hnot]
  · rfl

theorem readDocInfoFuel_stable (fs : FS) (dir : String) :
    ∀ (fuel₁ fuel₂ : Nat) (p : String) (stack : List String) (c : Cache),
      docBound fs stack ≤ fuel₁ → docBound fs stack ≤ fuel₂ →
      readDocInfoFuel fs dir fuel₁ p stack c = readDocInfoFuel fs dir fuel₂ p stack c := by
  intro fuel₁
  induction fuel₁ using Nat.strong_induction_on with
  | _ fuel₁ ih =>
    intro fuel₂ p stack c h1 h2
    have hb2 : 2 ≤ docBound fs stack := by unfold docBound; omega
    obtain ⟨m, rfl⟩ : ∃ m, fuel₁ = m + 1 := ⟨fuel₁ - 1, by omega⟩
    obtain ⟨n, rfl⟩ : ∃ n, fuel₂ = n + 1 := ⟨fuel₂ - 1, by omega⟩
    unfold readDocInfoFuel
    cases hc : mapGet c (resolveOne p) with
    | some v => rfl
    | none =>
      cases hread : fsRead fs p with
      | none => rfl
      | some raw =>
        show (match fmBlock raw.toList with
              | none => (none, mapSet c (resolveOne p) none)
              | some block =>
                let step := followRef (readDocInfoFuel fs dir m) p dir stack c (parseBlock block);
                (some step.1, mapSet step.2 (resolveOne p) step.1)) =
            (match fmBlock raw.toList with
              | none => (none, mapSet c (resolveOne p) none)
              | some block =>
                let step := followRef (readDocInfoFuel fs dir n) p dir stack c (parseBlock block);
                (some step.1, mapSet step.2 (resolveOne p) step.1))
        cases hblock : fmBlock raw.toList with
        | none => rfl
        | some block =>
          have hfollow : followRef (readDocInfoFuel fs dir m) p dir stack c (parseBlock block) =
              followRef (readDocInfoFuel fs dir n) p dir stack c (parseBlock block) := by
            apply followRef_congr
            intro rp hnot
            by_cases hkey : rp ∈ fs.map Prod.fst
            · have hdec := docBound_augment fs stack rp hkey hnot
              exact ih m (by omega) n rp (stack ++ [rp]) c (by omega) (by omega)
            · rw [readDocInfoFuel_no_file fs dir rp hkey m (by omega) _ c,
                readDocInfoFuel_no_file fs dir rp hkey n (by omega) _ c]
          show (let step := followRef (readDocInfoFuel fs dir m) p dir stack c (parseBlock block);
                (some step.1, mapSet step.2 (resolveOne p) step.1)) =
              (let step := followRef (readDocInfoFuel fs dir n) p dir stack c (parseBlock block);
                (some step.1, mapSet step.2 (resolveOne p) step.1))
          rw [hfollow]

/-- C8: cycle-safe termination of frontmatter resolution.  The
recursion budget is irrelevant beyond the bound docBound (so the
ref-chain recursion, cycles included, always ends within it);
readDocInfo's own budget is such a sufficient one; and on a cyclic
pair of refs the chain is truncated at the cycle without error,
returning the info determined up to that point. -/
theorem c8_termination :
    (∀ (fs : FS) (docsDir filePath : String) (stack : List String) (cache : Cache) (fuel : Nat),
        docBound fs stack ≤ fuel →
        readDocInfoFuel fs docsDir fuel filePath stack cache =
          readDocInfoFuel fs docsDir (docBound fs stack) filePath stack cache) ∧
    (∀ (fs : FS) (docsDir filePath : String) (cache : Cache),
        readDocInfo fs docsDir filePath cache =
          readDocInfoFuel fs docsDir (docBound fs []) filePath [] cache) ∧
    (readDocInfo [("/docs/r/a.md", "---\nref: ./b.md\n---\n"),
        ("/docs/r/b.md", "---\nref: ./a.md\n---\n")] "/docs/r" "/docs/r/a.md" []).1 =
      some { title := none, skip := none, ref := some "./b.md" } := by
  refine ⟨?_, ?_, by decide⟩
  · intro fs docsDir filePath stack cache fuel h
    exact readDocInfoFuel_stable fs docsDir fuel (docBound fs stack) filePath stack cache h
      (Nat.le_refl _)
  · intro fs docsDir filePath cache
    unfold readDocInfo
    apply readDocInfoFuel_stable
    · have h1 := List.length_filter_le (fun k => !(([] : List String).contains k))
        (fs.map Prod.fst)
      rw [List.length_map] at h1
      unfold docBound
      omega
    · exact Nat.le_refl _

/-- Witness for C8: the stability statement applied at a concrete
cyclic filesystem and budget. -/
theorem c8_termination_witness :
    readDocInfoFuel [("/docs/r/a.md", "---\nref: ./b.md\n---\n"),
        ("/docs/r/b.md", "---\nref: ./a.md\n---\n")] "/docs/r" 10 "/docs/r/a.md" [] [] =
      readDocInfoFuel [("/docs/r/a.md", "---\nref: ./b.md\n---\n"),
        ("/docs/r/b.md", "---\nref: ./a.md\n---\n")] "/docs/r"
        (docBound [("/docs/r/a.md", "---\nref: ./b.md\n---\n"),
          ("/docs/r/b.md", "---\nref: ./a.md\n---\n")] []) "/docs/r/a.md" [] [] :=
  c8_termination.1 [("/docs/r/a.md", "---\nref: ./b.md\n---\n"),
    ("/docs/r/b.md", "---\nref: ./a.md\n---\n")] "/docs/r" "/docs/r/a.md" [] [] 10 (by decide)

/-! ### Claim C9: the frame condition -/

/-- Everything of a config except the contents of its children
arrays: payload fields, section count, section labels, and the
framework-group structure (presence, count and labels) per section. -/
def sameSkeleton (a b : DocsConfig) : Prop :=
  a.docSearch = b.docSearch ∧ a.users = b.users ∧ a.extra = b.extra ∧
  a.sections.length = b.sections.length ∧
  (∀ i, (a.sections.get? i).map Section.label = (b.sections.get? i).map Section.label) ∧
  (∀ i, (a.sections.get? i).map (fun s => s.frameworks.map (List.map FrameworkGroup.label)) =
    (b.sections.get? i).map (fun s => s.frameworks.map (List.map FrameworkGroup.label)))

theorem sameSkeleton_refl (a : DocsConfig) : sameSkeleton a a :=
  ⟨rfl, rfl, rfl, rfl, fun _ => rfl, fun _ => rfl⟩

theorem sameSkeleton_trans {a b c : DocsConfig} (h1 : sameSkeleton a b)
    (h2 : sameSkeleton b c) : sameSkeleton a c := by
  obtain ⟨d1, u1, e1, l1, s1, f1⟩ := h1
  obtain ⟨d2, u2, e2, l2, s2, f2⟩ := h2
  exact ⟨d1.trans d2, u1.trans u2, e1.trans e2, l1.trans l2,
    fun i => (s1 i).trans (s2 i), fun i => (f1 i).trans (f2 i)⟩

theorem length_listModify {α : Type} (f : α → α) (n : Nat) (l : List α) :
    (listModify f n l).length = l.length := by
  induction l generalizing n with
  | nil => cases n <;> rfl
  | cons x rest ih => cases n with
    | zero => rfl
    | succ n => simpa [listModify] using ih n

theorem map_listModify_invariant {α β : Type} (g : α → β) (f : α → α)
    (h : ∀ x, g (f x) = g x) : ∀ (n : Nat) (l : List α),
    (listModify f n l).map g = l.map g := by
  intro n l
  induction l generalizing n with
  | nil => cases n <;> rfl
  | cons x rest ih => cases n with
    | zero => simp [listModify, h]
    | succ n => simp [listModify, ih n]

theorem sameSkeleton_update (config : DocsConfig) (p : Placement) (c : List NavItem) :
    sameSkeleton (updateContainer config p c) config := by
  unfold updateContainer
  refine ⟨rfl, rfl, rfl, ?_, ?_, ?_⟩
  · exact length_listModify _ _ _
  · intro i
    simp only [List.get?_eq_getElem?, get?_listModify]
    by_cases hi : i = p.sectionIdx
    · subst hi
      rw [if_pos rfl]
      cases hget : config.sections[p.sectionIdx]? with
      | none => rfl
      | some s => cases p.frameworkIdx <;> rfl
    · rw [if_neg hi]
  · have hsec : ∀ s : Section,
        Option.map (List.map FrameworkGroup.label)
          (Section.frameworks
            (match p.frameworkIdx with
              | none => { s with children := c }
              | some j =>
                { s with frameworks :=
                    s.frameworks.map (listModify (fun fw => { fw with children := c }) j) })) =
          Option.map (List.map FrameworkGroup.label) s.frameworks := by
      intro s
      cases hpf : p.frameworkIdx with
      | none => rfl
      | some j =>
        cases hf : s.frameworks with
        | none => rfl
        | some fws =>
          simp only [Option.map_some']
          rw [map_listModify_invariant FrameworkGroup.label
            (fun fw => { fw with children := c }) (fun fw => rfl) j fws]
    intro i
    simp only [List.get?_eq_getElem?, get?_listModify]
    by_cases hi : i = p.sectionIdx
    · subst hi
      rw [if_pos rfl]
      cases hget : config.sections[p.sectionIdx]? with
      | none => rfl
      | some s =>
        simp only [Option.map_some']
        exact congrArg some (hsec s)
    · rw [if_neg hi]

theorem classifyStep_skeleton (dir : String) (index : PlacementIndex) (st : PureState)
    (filePath route : String) (fm : Option FrontmatterInfo) :
    sameSkeleton (classifyStep dir index st filePath route fm).config st.config := by
  cases fm with
  | none => exact sameSkeleton_refl _
  | some frontmatter =>
    simp only [classifyStep]
    cases hT : (!strTruthy frontmatter.title) with
    | true => exact sameSkeleton_refl _
    | false =>
      by_cases hS : frontmatter.skip = some true
      · simp only [if_pos hS]; exact sameSkeleton_refl _
      · simp only [if_neg hS]
        cases hp : findPlacement route index with
        | none => exact sameSkeleton_refl _
        | some placement => exact sameSkeleton_update _ _ _

theorem cachedStep_skeleton (fs : FS) (dir configPath : String) (index : PlacementIndex)
    (st : SyncState) (filePath : String) :
    sameSkeleton (cachedStep fs dir configPath index st filePath).pure.config
      st.pure.config := by
  unfold cachedStep
  by_cases hc : filePath = configPath
  · simp only [if_pos hc]; exact sameSkeleton_refl _
  · simp only [if_neg hc]
    cases hr : (isReadme (basename filePath) || isDraft (basename filePath)) with
    | true => exact sameSkeleton_refl _
    | false => exact classifyStep_skeleton _ _ _ _ _ _

theorem runLoop_skeleton (fs : FS) (dir configPath : String) (index : PlacementIndex)
    (st : SyncState) (files : List String) :
    sameSkeleton (runLoop fs dir configPath index st files).pure.config st.pure.config := by
  induction files generalizing st with
  | nil => exact sameSkeleton_refl _
  | cons p rest ih =>
    exact sameSkeleton_trans (ih (cachedStep fs dir configPath index st p))
      (cachedStep_skeleton fs dir configPath index st p)

theorem prune_skeleton (config : DocsConfig) (skipRoutes : List String) (log : ChangeLog) :
    sameSkeleton (pruneConfig config skipRoutes log).1 config := by
  rw [pruneConfig_fst]
  refine ⟨rfl, rfl, rfl, by simp, ?_, ?_⟩
  · intro i
    simp only [List.get?_eq_getElem?, List.getElem?_map]
    cases hget : config.sections[i]? with
    | none => rfl
    | some s => rfl
  · intro i
    simp only [List.get?_eq_getElem?, List.getElem?_map]
    cases hget : config.sections[i]? with
    | none => rfl
    | some s =>
      simp only [Option.map]
      cases hf : s.frameworks with
      | none => rfl
      | some fws => simp [List.map_map]

/-- C9: frame condition of a pass.  A run only mutates the children
arrays: the docSearch payload, the users list, unknown top-level keys,
the section list's length and labels, and the framework-group
structure all pass through unchanged; and each children array of the
persisted config is its original version (surviving entries unchanged,
badges included, in order) minus skip-pruned entries, plus appended
entries at the end. -/
theorem c9_frame (fs : FS) (dir : String) (config : DocsConfig) (cache : Cache) :
    sameSkeleton (processDocsConfig fs dir config cache).config config ∧
    (∀ q : Placement, ∃ app,
      containerAt (processDocsConfig fs dir config cache).config q =
        (containerAt config q).filter
          (fun e => !((loopState fs dir config cache).pure.skipRoutes.contains e.to')) ++ app) := by
  constructor
  · exact sameSkeleton_trans
      (prune_skeleton (loopState fs dir config cache).pure.config
        (loopState fs dir config cache).pure.skipRoutes (loopState fs dir config cache).pure.log)
      (runLoop_skeleton fs dir (dir ++ "/config.json") (buildPlacementIndex config)
        ⟨{ config := config }, cache⟩ (listContentFiles fs dir))
  · intro q
    obtain ⟨A, hA⟩ := runLoop_extends fs dir (dir ++ "/config.json") (buildPlacementIndex config)
      ⟨{ config := config }, cache⟩ (listContentFiles fs dir) q
    refine ⟨(A.filter (fun e =>
      !((loopState fs dir config cache).pure.skipRoutes.contains e.to'))), ?_⟩
    show containerAt (pruneConfig (loopState fs dir config cache).pure.config
      (loopState fs dir config cache).pure.skipRoutes
      (loopState fs dir config cache).pure.log).1 q = _
    rw [containerAt_prune, removeSkippedList_fst]
    have hA2 : containerAt (loopState fs dir config cache).pure.config q =
        containerAt config q ++ A := hA
    rw [hA2, List.filter_append]

/-! ### Lemmas: the byRoute map of the placement index -/

theorem mapGet_mapSet_cases {α : Type} (m : List (String × α)) (k k' : String) (v w : α)
    (h : mapGet (mapSet m k v) k' = some w) :
    (k' = k ∧ w = v) ∨ mapGet m k' = some w := by
  by_cases hk : k = k'
  · subst hk
    rw [mapGet_mapSet_self] at h
    exact Or.inl ⟨rfl, (Option.some_inj.mp h).symm⟩
  · rw [mapGet_mapSet_of_ne m v hk] at h
    exact Or.inr h

theorem mapGet_mapSet_isSome {α : Type} (m : List (String × α)) (k k' : String) (v : α)
    (h : (mapGet m k').isSome) : (mapGet (mapSet m k v) k').isSome := by
  by_cases hk : k = k'
  · subst hk; rw [mapGet_mapSet_self]; rfl
  · rw [mapGet_mapSet_of_ne m v hk]; exact h

theorem byRoute_fold_none (regs : List (String × Placement)) (idx0 : PlacementIndex)
    (k : String) (h : ∀ rp ∈ regs, rp.1 ≠ k) :
    mapGet ((regs.foldl (fun idx rp => registerRoute idx rp.1 rp.2) idx0).byRoute) k =
      mapGet idx0.byRoute k := by
  induction regs generalizing idx0 with
  | nil => rfl
  | cons rp rest ih =>
    simp only [List.foldl_cons]
    rw [ih _ (fun q hq => h q (List.mem_cons_of_mem rp hq))]
    exact mapGet_mapSet_of_ne _ _ (h rp (List.mem_cons_self rp rest) : rp.1 ≠ k)

theorem byRoute_fold_mem (regs : List (String × Placement)) (idx0 : PlacementIndex)
    (k : String) (v : Placement)
    (h : mapGet ((regs.foldl (fun idx rp => registerRoute idx rp.1 rp.2) idx0).byRoute) k =
      some v) :
    (k, v) ∈ regs ∨ mapGet idx0.byRoute k = some v := by
  induction regs generalizing idx0 with
  | nil => exact Or.inr h
  | cons rp rest ih =>
    simp only [List.foldl_cons] at h
    rcases ih _ h with hmem | hbase
    · exact Or.inl (List.mem_cons_of_mem rp hmem)
    · rcases mapGet_mapSet_cases _ _ _ _ _ hbase with ⟨hk, hv⟩ | hold
      · exact Or.inl (by
          rw [hk, hv]
          exact List.mem_cons_self _ _)
      · exact Or.inr hold

theorem byRoute_fold_preserves_isSome (regs : List (String × Placement))
    (idx : PlacementIndex) (k : String) (h : (mapGet idx.byRoute k).isSome) :
    (mapGet ((regs.foldl (fun idx rp => registerRoute idx rp.1 rp.2) idx).byRoute) k).isSome := by
  induction regs generalizing idx with
  | nil => exact h
  | cons q rest ih =>
    simp only [List.foldl_cons]
    exact ih _ (mapGet_mapSet_isSome _ _ _ _ h)

theorem byRoute_fold_isSome (regs : List (String × Placement)) (idx0 : PlacementIndex)
    (k : String) (v : Placement) (h : (k, v) ∈ regs) :
    (mapGet ((regs.foldl (fun idx rp => registerRoute idx rp.1 rp.2) idx0).byRoute) k).isSome := by
  induction regs generalizing idx0 with
  | nil => cases h
  | cons rp rest ih =>
    simp only [List.foldl_cons]
    rcases List.mem_cons.mp h with he | he
    · subst he
      refine byRoute_fold_preserves_isSome rest (registerRoute idx0 k v) k ?_
      show (mapGet (mapSet idx0.byRoute k v) k).isSome
      rw [mapGet_mapSet_self]; rfl
    · exact ih _ he

/-! ### Lemmas: the registrations of a config -/

theorem mem_enumFrom {α : Type} : ∀ (l : List α) (n i : Nat) (x : α),
    (i, x) ∈ enumFrom n l → ∃ k, i = n + k ∧ l.get? k = some x := by
  intro l
  induction l with
  | nil => intro n i x h; cases h
  | cons y rest ih =>
    intro n i x h
    rcases List.mem_cons.mp h with he | he
    · obtain ⟨h1, h2⟩ := Prod.mk.injEq .. ▸ he
      exact ⟨0, by omega, by simp [← h2]⟩
    · obtain ⟨k, hk, hg⟩ := ih (n + 1) i x he
      exact ⟨k + 1, by omega, by simpa using hg⟩

theorem enumFrom_mem {α : Type} : ∀ (l : List α) (n k : Nat) (x : α),
    l.get? k = some x → (n + k, x) ∈ enumFrom n l := by
  intro l
  induction l with
  | nil => intro n k x h; cases h
  | cons y rest ih =>
    intro n k x h
    cases k with
    | zero =>
      simp only [List.get?] at h
      exact (Option.some_inj.mp h) ▸ List.mem_cons_self _ _
    | succ k =>
      simp only [List.get?] at h
      have := ih (n + 1) k x h
      exact List.mem_cons_of_mem _ (by
        have harith : n + 1 + k = n + (k + 1) := by omega
        exact harith ▸ this)

theorem registrations_spec (config : DocsConfig) (r : String) (loc : Placement)
    (h : (r, loc) ∈ registrations config) :
    locValid config loc ∧ ∃ e ∈ containerAt config loc, e.to' = r := by
  unfold registrations at h
  rw [List.mem_flatMap] at h
  obtain ⟨⟨i, s⟩, hin, hreg⟩ := h
  obtain ⟨k, hk, hget⟩ := mem_enumFrom _ 0 i s hin
  have hik : i = k := by omega
  subst hik
  unfold sectionRegs at hreg
  rw [List.mem_append] at hreg
  rcases hreg with hch | hfw
  · rw [List.mem_map] at hch
    obtain ⟨e, he, heq⟩ := hch
    have hloc : loc = ⟨i, none⟩ := by
      have h2 := congrArg Prod.snd heq; simpa using h2.symm
    have hr : e.to' = r := by
      have := congrArg Prod.fst heq; simpa using this
    subst hloc
    constructor
    · unfold locValid
      simp only [hget]
    · refine ⟨e, ?_, hr⟩
      unfold containerAt
      simp only [hget]
      exact he
  · cases hf : s.frameworks with
    | none => rw [hf] at hfw; cases hfw
    | some fws =>
      rw [hf] at hfw
      rw [List.mem_flatMap] at hfw
      obtain ⟨⟨j, fw⟩, hjin, hmem⟩ := hfw
      obtain ⟨k2, hk2, hget2⟩ := mem_enumFrom _ 0 j fw hjin
      have hjk : j = k2 := by omega
      subst hjk
      rw [List.mem_map] at hmem
      obtain ⟨e, he, heq⟩ := hmem
      have hloc : loc = ⟨i, some j⟩ := by
        have h2 := congrArg Prod.snd heq; simpa using h2.symm
      have hr : e.to' = r := by
        have := congrArg Prod.fst heq; simpa using this
      subst hloc
      constructor
      · unfold locValid
        simp only [hget, hf]
        exact (List.get?_eq_some.mp hget2).1
      · refine ⟨e, ?_, hr⟩
        unfold containerAt
        simp only [hget, hf, hget2]
        exact he

theorem registrations_complete (config : DocsConfig) (q : Placement) (e : NavItem)
    (h : e ∈ containerAt config q) :
    ∃ loc, (e.to', loc) ∈ registrations config := by
  unfold containerAt at h
  cases hget : config.sections.get? q.sectionIdx with
  | none => simp only [hget] at h; cases h
  | some s =>
    simp only [hget] at h
    have hsec : (q.sectionIdx, s) ∈ enumFrom 0 config.sections := by
      have := enumFrom_mem config.sections 0 q.sectionIdx s hget
      simpa using this
    cases hqf : q.frameworkIdx with
    | none =>
      simp only [hqf] at h
      refine ⟨⟨q.sectionIdx, none⟩, ?_⟩
      unfold registrations
      rw [List.mem_flatMap]
      refine ⟨(q.sectionIdx, s), hsec, ?_⟩
      unfold sectionRegs
      rw [List.mem_append]
      exact Or.inl (List.mem_map.mpr ⟨e, h, rfl⟩)
    | some j =>
      simp only [hqf] at h
      cases hf : s.frameworks with
      | none => simp only [hf] at h; cases h
      | some fws =>
        simp only [hf] at h
        cases hj : fws.get? j with
        | none => simp only [hj] at h; cases h
        | some fw =>
          simp only [hj] at h
          refine ⟨⟨q.sectionIdx, some j⟩, ?_⟩
          unfold registrations
          rw [List.mem_flatMap]
          refine ⟨(q.sectionIdx, s), hsec, ?_⟩
          unfold sectionRegs
          rw [List.mem_append]
          refine Or.inr ?_
          rw [hf, List.mem_flatMap]
          refine ⟨(j, fw), by simpa using enumFrom_mem fws 0 j fw hj, ?_⟩
          exact List.mem_map.mpr ⟨e, h, rfl⟩

theorem byRoute_none (config : DocsConfig) (k : String)
    (h : ∀ rp ∈ registrations config, rp.1 ≠ k) :
    mapGet (buildPlacementIndex config).byRoute k = none := by
  unfold buildPlacementIndex
  rw [byRoute_fold_none _ _ _ h]
  rfl

theorem byRoute_mem (config : DocsConfig) (k : String) (v : Placement)
    (h : mapGet (buildPlacementIndex config).byRoute k = some v) :
    (k, v) ∈ registrations config := by
  unfold buildPlacementIndex at h
  rcases byRoute_fold_mem _ _ _ _ h with hm | hbase
  · exact hm
  · cases hbase

theorem byRoute_isSome (config : DocsConfig) (k : String) (v : Placement)
    (h : (k, v) ∈ registrations config) :
    (mapGet (buildPlacementIndex config).byRoute k).isSome := by
  unfold buildPlacementIndex
  exact byRoute_fold_isSome _ _ _ _ h

theorem byDir_none (config : DocsConfig) (a : String)
    (h : ∀ rp ∈ registrations config, a ∉ chainRoutes rp.1) :
    mapGet (buildPlacementIndex config).byDir a = none := by
  unfold buildPlacementIndex
  rw [mapGet_regsFold_byDir]
  have hfind : (registrations config).find?
      (fun rp => (chainRoutes rp.1).contains a) = none :=
    List.find?_eq_none.mpr (fun rp hrp => by simpa [contains_iff] using h rp hrp)
  unfold firstRegistrant
  rw [hfind]
  rfl

/-! ### Claim C3 -/

/-- C3 counterexample: a config with an entry at a/b in one section
and an entry at a/b/c/d in another.  There is no entry for a/b/c, yet
the pass appends the new a/b/c entry to the second section's container
(the byDir claim of the deeper entry), not to the container holding
a/b. -/
theorem c3_counterexample :
    (∃ e ∈ containerAt
        { sections := [{ label := "S1", children := [⟨"AB", "a/b", none⟩] },
          { label := "S2", children := [⟨"D", "a/b/c/d", none⟩] }] } ⟨0, none⟩,
      e.to' = "a/b") ∧
    (processDocsConfig [("/docs/r/a/b/c.md", "---\ntitle: T\n---\n")] "/docs/r"
        { sections := [{ label := "S1", children := [⟨"AB", "a/b", none⟩] },
          { label := "S2", children := [⟨"D", "a/b/c/d", none⟩] }] } []).config.sections =
      [{ label := "S1", children := [⟨"AB", "a/b", none⟩] },
       { label := "S2", children := [⟨"D", "a/b/c/d", none⟩, ⟨"T", "a/b/c", none⟩] }] := by
  refine ⟨⟨⟨"AB", "a/b", none⟩, by decide, rfl⟩, by decide⟩

/-- C3 (amended): ancestor placement.  If the config has exactly one
registration for route a/b, sitting in the container at loc, and no
registration whose ancestor walk contains a/b/c (no entry at or below
a/b/c), then the placement lookup for a/b/c lands on loc - the same
container that holds the a/b entry - and inserting the new a/b/c item
there appends it at the end. -/
theorem c3_ancestor_placement (config : DocsConfig) (loc : Placement)
    (hreg : (registrations config).filter (fun rp => rp.1 == "a/b") = [("a/b", loc)])
    (hnodesc : ∀ rp ∈ registrations config, "a/b/c" ∉ chainRoutes rp.1) :
    findPlacement "a/b/c" (buildPlacementIndex config) = some loc ∧
    (∃ e ∈ containerAt config loc, e.to' = "a/b") ∧
    (∀ (item : NavItem) (log : ChangeLog), item.to' = "a/b/c" →
      (ensureNavItem (containerAt config loc) item log).1 =
        containerAt config loc ++ [item]) := by
  have hmem : ("a/b", loc) ∈ registrations config := by
    have : ("a/b", loc) ∈ (registrations config).filter (fun rp => rp.1 == "a/b") := by
      rw [hreg]; exact List.mem_singleton.mpr rfl
    exact List.mem_of_mem_filter this
  have hsome : (mapGet (buildPlacementIndex config).byRoute "a/b").isSome :=
    byRoute_isSome config "a/b" loc hmem
  obtain ⟨v, hv⟩ := Option.isSome_iff_exists.mp hsome
  have hvloc : v = loc := by
    have hvmem : ("a/b", v) ∈ registrations config := byRoute_mem config "a/b" v hv
    have : ("a/b", v) ∈ (registrations config).filter (fun rp => rp.1 == "a/b") :=
      List.mem_filter.mpr ⟨hvmem, by simp⟩
    rw [hreg] at this
    have := List.mem_singleton.mp this
    exact congrArg Prod.snd this
  rw [hvloc] at hv
  have hRc : mapGet (buildPlacementIndex config).byRoute "a/b/c" = none :=
    byRoute_none config "a/b/c" (fun rp hrp he => by
      have := hnodesc rp hrp
      rw [he] at this
      exact this (by decide))
  have hDc : mapGet (buildPlacementIndex config).byDir "a/b/c" = none :=
    byDir_none config "a/b/c" hnodesc
  have hchain : chainRoutes "a/b/c" = ["a/b/c", "a/b", "a"] := by decide
  refine ⟨?_, ?_, ?_⟩
  · unfold findPlacement
    rw [hchain]
    unfold firstHit
    rw [hRc, hDc]
    simp only [Option.orElse, firstHit, hv]
  · exact (registrations_spec config "a/b" loc hmem).2
  · intro item log hitem
    refine ensureNavItem_of_not_mem _ _ _ (fun e he heq => ?_)
    obtain ⟨l, hl⟩ := registrations_complete config loc e he
    have h3 : "a/b/c" ∉ chainRoutes e.to' := hnodesc (e.to', l) hl
    rw [heq, hitem] at h3
    exact h3 (by decide)

/-- Witness for C3 at a concrete config with a single a/b entry. -/
theorem c3_ancestor_placement_witness :
    findPlacement "a/b/c" (buildPlacementIndex
      { sections := [{ label := "G", children := [⟨"AB", "a/b", none⟩] }] }) =
      some ⟨0, none⟩ ∧
    (ensureNavItem (containerAt
        { sections := [{ label := "G", children := [⟨"AB", "a/b", none⟩] }] } ⟨0, none⟩)
      ⟨"T", "a/b/c", none⟩ {}).1 = [⟨"AB", "a/b", none⟩, ⟨"T", "a/b/c", none⟩] :=
  ⟨(c3_ancestor_placement
      { sections := [{ label := "G", children := [⟨"AB", "a/b", none⟩] }] } ⟨0, none⟩
      (by decide) (by decide)).1,
    (c3_ancestor_placement
      { sections := [{ label := "G", children := [⟨"AB", "a/b", none⟩] }] } ⟨0, none⟩
      (by decide) (by decide)).2.2 ⟨"T", "a/b/c", none⟩ {} rfl⟩

/-! ### The cache as an oracle: coherence of repeated runs -/

/-- A cache hit returns the cached value and leaves the cache alone. -/
theorem readDocInfoFuel_hit (fs : FS) (dir : String) (fuel : Nat) (p : String)
    (stack : List String) (c : Cache) (v : Option FrontmatterInfo)
    (hf : 1 ≤ fuel) (h : mapGet c (resolveOne p) = some v) :
    readDocInfoFuel fs dir fuel p stack c = (v, c) := by
  obtain ⟨m, rfl⟩ : ∃ m, fuel = m + 1 := ⟨fuel - 1, by omega⟩
  unfold readDocInfoFuel
  rw [h]

/-- After any call with a positive budget, the queried path's resolved
key is cached and maps to the returned value. -/
theorem readDocInfoFuel_records (fs : FS) (dir : String) (fuel : Nat) (p : String)
    (stack : List String) (c : Cache) (hf : 1 ≤ fuel) :
    mapGet (readDocInfoFuel fs dir fuel p stack c).2 (resolveOne p) =
      some (readDocInfoFuel fs dir fuel p stack c).1 := by
  obtain ⟨m, rfl⟩ : ∃ m, fuel = m + 1 := ⟨fuel - 1, by omega⟩
  unfold readDocInfoFuel
  cases hc : mapGet c (resolveOne p) with
  | some v => exact hc
  | none =>
    cases hread : fsRead fs p with
    | none => exact mapGet_mapSet_self c (resolveOne p) none
    | some raw =>
      show mapGet (match fmBlock raw.toList with
            | none => ((none : Option FrontmatterInfo), mapSet c (resolveOne p) none)
            | some block =>
              let step := followRef (readDocInfoFuel fs dir m) p dir stack c (parseBlock block);
              (some step.1, mapSet step.2 (resolveOne p) step.1)).2 (resolveOne p) =
          some (match fmBlock raw.toList with
            | none => ((none : Option FrontmatterInfo), mapSet c (resolveOne p) none)
            | some block =>
              let step := followRef (readDocInfoFuel fs dir m) p dir stack c (parseBlock block);
              (some step.1, mapSet step.2 (resolveOne p) step.1)).1
      cases hblock : fmBlock raw.toList with
      | none => exact mapGet_mapSet_self c (resolveOne p) none
      | some block => exact mapGet_mapSet_self _ (resolveOne p) _

/-- followRef only grows the cache: an entry present before the call
keeps its value, provided the recursive calls preserve it. -/
theorem followRef_preserves
    (recur : String → List String → Cache → Option FrontmatterInfo × Cache)
    (filePath docsDir : String) (stack : List String) (cache : Cache)
    (info0 : FrontmatterInfo) (k : String) (w : Option FrontmatterInfo)
    (hrec : ∀ rp st, mapGet (recur rp st cache).2 k = some w)
    (h : mapGet cache k = some w) :
    mapGet (followRef recur filePath docsDir stack cache info0).2 k = some w := by
  unfold followRef
  split
  · split
    · exact h
    · split
      · exact h
      · rename_i refPath hrp hguard
        have hfp := hrec refPath (stack ++ [refPath])
        obtain ⟨i1, c1, hg⟩ : ∃ i1 c1,
            recur refPath (stack ++ [refPath]) cache = (i1, c1) := ⟨_, _, rfl⟩
        rw [hg] at hfp
        rw [hg]
        cases i1 with
        | none => exact hfp
        | some referenced => exact hfp
  · exact h

/-- readDocInfoFuel only grows the cache: an entry present before the
call is present with the same value after it. -/
theorem readDocInfoFuel_preserves (fs : FS) (dir : String) :
    ∀ (fuel : Nat) (p : String) (stack : List String) (c : Cache) (k : String)
      (w : Option FrontmatterInfo), mapGet c k = some w →
      mapGet (readDocInfoFuel fs dir fuel p stack c).2 k = some w := by
  intro fuel
  induction fuel with
  | zero => intro p stack c k w h; exact h
  | succ m ih =>
    intro p stack c k w h
    unfold readDocInfoFuel
    cases hc : mapGet c (resolveOne p) with
    | some v => exact h
    | none =>
      have hk : resolveOne p ≠ k := by
        intro he; rw [← he, hc] at h; cases h
      cases hread : fsRead fs p with
      | none =>
        show mapGet (mapSet c (resolveOne p) none) k = some w
        rw [mapGet_mapSet_of_ne c none hk]
        exact h
      | some raw =>
        show mapGet (match fmBlock raw.toList with
              | none => ((none : Option FrontmatterInfo), mapSet c (resolveOne p) none)
              | some block =>
                let step := followRef (readDocInfoFuel fs dir m) p dir stack c (parseBlock block);
                (some step.1, mapSet step.2 (resolveOne p) step.1)).2 k = some w
        cases hblock : fmBlock raw.toList with
        | none =>
          show mapGet (mapSet c (resolveOne p) none) k = some w
          rw [mapGet_mapSet_of_ne c none hk]
          exact h
        | some block =>
          have hfp := followRef_preserves (readDocInfoFuel fs dir m) p dir stack c
            (parseBlock block) k w (fun rp st => ih rp st c k w h) h
          show mapGet (mapSet
              (followRef (readDocInfoFuel fs dir m) p dir stack c (parseBlock block)).2
              (resolveOne p)
              (some (followRef (readDocInfoFuel fs dir m) p dir stack c (parseBlock block)).1))
            k = some w
          rw [mapGet_mapSet_of_ne _ _ hk]
          exact hfp

/-- The entry-point versions of the three cache facts. -/
theorem readDocInfo_hit (fs : FS) (dir p : String) (c : Cache)
    (v : Option FrontmatterInfo) (h : mapGet c (resolveOne p) = some v) :
    readDocInfo fs dir p c = (v, c) :=
  readDocInfoFuel_hit fs dir (fs.length + 2) p [] c v (by omega) h

theorem readDocInfo_records (fs : FS) (dir p : String) (c : Cache) :
    mapGet (readDocInfo fs dir p c).2 (resolveOne p) = some (readDocInfo fs dir p c).1 :=
  readDocInfoFuel_records fs dir (fs.length + 2) p [] c (by omega)

theorem readDocInfo_preserves (fs : FS) (dir p : String) (c : Cache) (k : String)
    (w : Option FrontmatterInfo) (h : mapGet c k = some w) :
    mapGet (readDocInfo fs dir p c).2 k = some w :=
  readDocInfoFuel_preserves fs dir (fs.length + 2) p [] c k w h

/-- One loop step only grows the cache. -/
theorem cachedStep_cache_preserves (fs : FS) (dir cp : String) (idx : PlacementIndex)
    (st : SyncState) (p k : String) (w : Option FrontmatterInfo)
    (h : mapGet st.cache k = some w) :
    mapGet (cachedStep fs dir cp idx st p).cache k = some w := by
  unfold cachedStep
  by_cases hc : p = cp
  · rw [if_pos hc]; exact h
  · simp only [if_neg hc]
    cases hr : (isReadme (basename p) || isDraft (basename p)) with
    | true => exact h
    | false => exact readDocInfo_preserves fs dir p st.cache k w h

/-- The per-file loop only grows the cache. -/
theorem runLoop_cache_preserves (fs : FS) (dir cp : String) (idx : PlacementIndex) :
    ∀ (files : List String) (st : SyncState) (k : String) (w : Option FrontmatterInfo),
      mapGet st.cache k = some w →
      mapGet (runLoop fs dir cp idx st files).cache k = some w := by
  intro files
  induction files with
  | nil => intro st k w h; exact h
  | cons p rest ih =>
    intro st k w h
    exact ih (cachedStep fs dir cp idx st p) k w
      (cachedStep_cache_preserves fs dir cp idx st p k w h)

/-- After a step on a non-config, non-readme, non-draft file, the
file's key is cached with the value the step consumed. -/
theorem cachedStep_cache_key (fs : FS) (dir cp : String) (idx : PlacementIndex)
    (st : SyncState) (p : String) (hcp : p ≠ cp)
    (hrd : (isReadme (basename p) || isDraft (basename p)) = false) :
    mapGet (cachedStep fs dir cp idx st p).cache (resolveOne p) =
      some (readDocInfo fs dir p st.cache).1 := by
  unfold cachedStep
  simp only [if_neg hcp]
  rw [hrd]
  exact readDocInfo_records fs dir p st.cache

/-- After the loop, every scanned non-config, non-readme, non-draft
file's key is cached. -/
theorem runLoop_cache_records (fs : FS) (dir cp : String) (idx : PlacementIndex) :
    ∀ (files : List String) (st : SyncState) (p : String), p ∈ files → p ≠ cp →
      (isReadme (basename p) || isDraft (basename p)) = false →
      ∃ v, mapGet (runLoop fs dir cp idx st files).cache (resolveOne p) = some v := by
  intro files
  induction files with
  | nil => intro st p hp; cases hp
  | cons q rest ih =>
    intro st p hp hcp hrd
    cases hp with
    | head =>
      exact ⟨(readDocInfo fs dir q st.cache).1,
        runLoop_cache_preserves fs dir cp idx rest (cachedStep fs dir cp idx st q)
          (resolveOne q) ((readDocInfo fs dir q st.cache).1)
          (cachedStep_cache_key fs dir cp idx st q hcp hrd)⟩
    | tail _ hmem => exact ih (cachedStep fs dir cp idx st q) p hmem hcp hrd

/-- The frontmatter oracle read off a fixed cache state. -/
def oracleOf (fs : FS) (docsDir : String) (c : Cache) (p : String) :
    Option FrontmatterInfo :=
  (readDocInfo fs docsDir p c).1

/-- One cached step equals the pure step driven by the oracle of any
cache that extends the step's own output cache. -/
theorem cachedStep_pure (fs : FS) (dir cp : String) (idx : PlacementIndex)
    (st : SyncState) (p : String) (F : Cache)
    (hF : ∀ k w, mapGet (cachedStep fs dir cp idx st p).cache k = some w →
      mapGet F k = some w) :
    (cachedStep fs dir cp idx st p).pure =
      pureStep (oracleOf fs dir F) dir cp idx st.pure p := by
  unfold cachedStep pureStep
  by_cases hc : p = cp
  · rw [if_pos hc, if_pos hc]
  · simp only [if_neg hc]
    cases hr : (isReadme (basename p) || isDraft (basename p)) with
    | true => rfl
    | false =>
      have hkey := cachedStep_cache_key fs dir cp idx st p hc hr
      have hhit := readDocInfo_hit fs dir p F (readDocInfo fs dir p st.cache).1
        (hF (resolveOne p) ((readDocInfo fs dir p st.cache).1) hkey)
      have horacle : oracleOf fs dir F p = (readDocInfo fs dir p st.cache).1 := by
        unfold oracleOf; rw [hhit]
      rw [horacle]
      rfl

/-- The loop's pure component is the pure loop driven by the oracle of
the loop's own final cache. -/
theorem runLoop_pure (fs : FS) (dir cp : String) (idx : PlacementIndex) :
    ∀ (files : List String) (st : SyncState),
      (runLoop fs dir cp idx st files).pure =
        files.foldl
          (pureStep (oracleOf fs dir (runLoop fs dir cp idx st files).cache) dir cp idx)
          st.pure := by
  intro files
  induction files with
  | nil => intro st; rfl
  | cons p rest ih =>
    intro st
    show (runLoop fs dir cp idx (cachedStep fs dir cp idx st p) rest).pure =
      List.foldl
        (pureStep
          (oracleOf fs dir (runLoop fs dir cp idx (cachedStep fs dir cp idx st p) rest).cache)
          dir cp idx)
        st.pure (p :: rest)
    rw [List.foldl_cons]
    rw [ih (cachedStep fs dir cp idx st p)]
    rw [cachedStep_pure fs dir cp idx st p
      (runLoop fs dir cp idx (cachedStep fs dir cp idx st p) rest).cache
      (fun k w h => runLoop_cache_preserves fs dir cp idx rest
        (cachedStep fs dir cp idx st p) k w h)]

/-- If every scanned file is already cached, the loop leaves the cache
unchanged. -/
theorem runLoop_cache_frozen (fs : FS) (dir cp : String) (idx : PlacementIndex) :
    ∀ (files : List String) (st : SyncState),
      (∀ p ∈ files, p ≠ cp → (isReadme (basename p) || isDraft (basename p)) = false →
        (mapGet st.cache (resolveOne p)).isSome = true) →
      (runLoop fs dir cp idx st files).cache = st.cache := by
  intro files
  induction files with
  | nil => intro st hall; rfl
  | cons p rest ih =>
    intro st hall
    have hcache : (cachedStep fs dir cp idx st p).cache = st.cache := by
      unfold cachedStep
      by_cases hc : p = cp
      · rw [if_pos hc]
      · simp only [if_neg hc]
        cases hr : (isReadme (basename p) || isDraft (basename p)) with
        | true => rfl
        | false =>
          obtain ⟨v, hv⟩ := Option.isSome_iff_exists.mp
            (hall p (List.mem_cons_self p rest) hc hr)
          show (readDocInfo fs dir p st.cache).2 = st.cache
          rw [readDocInfo_hit fs dir p st.cache v hv]
    show (runLoop fs dir cp idx (cachedStep fs dir cp idx st p) rest).cache = st.cache
    rw [← hcache]
    apply ih
    intro q hq hqcp hqrd
    rw [hcache]
    exact hall q (List.mem_cons_of_mem p hq) hqcp hqrd

/-! ### Lemmas: the removal log of the pruning pass -/

theorem removeSkippedList_snd_mem (container : List NavItem) (skipped : List String)
    (e : NavItem) (he : e ∈ container) (hs : skipped.contains e.to' = true) :
    e.to' ∈ (removeSkippedList container skipped).2 := by
  induction container with
  | nil => cases he
  | cons x rest ih =>
    cases he with
    | head => simp [removeSkippedList, contains_iff.mp hs]
    | tail _ hmem =>
      have hr := ih hmem
      by_cases hx : x.to' ∈ skipped
      · simp [removeSkippedList, hx, hr]
      · simpa [removeSkippedList, hx] using hr

theorem pruneFrameworks_removed_mono (skip : List String) :
    ∀ (fws : List FrameworkGroup) (log : ChangeLog) (x : String),
      x ∈ log.removed → x ∈ (pruneFrameworks skip fws log).2.removed := by
  intro fws
  induction fws with
  | nil => intro log x h; exact h
  | cons fw rest ih =>
    intro log x h
    show x ∈ (pruneFrameworks skip rest (removeSkipped fw.children skip log).2).2.removed
    apply ih
    show x ∈ log.removed ++ (removeSkippedList fw.children skip).2
    exact List.mem_append_left _ h

theorem pruneSection_removed_mono (skip : List String) (s : Section) (log : ChangeLog)
    (x : String) (h : x ∈ log.removed) : x ∈ (pruneSection skip s log).2.removed := by
  unfold pruneSection
  cases hf : s.frameworks with
  | none =>
    simp only [hf]
    show x ∈ log.removed ++ (removeSkippedList s.children skip).2
    exact List.mem_append_left _ h
  | some fws =>
    simp only [hf]
    apply pruneFrameworks_removed_mono
    show x ∈ log.removed ++ (removeSkippedList s.children skip).2
    exact List.mem_append_left _ h

theorem pruneSections_removed_mono (skip : List String) :
    ∀ (sections : List Section) (log : ChangeLog) (x : String),
      x ∈ log.removed → x ∈ (pruneSections skip sections log).2.removed := by
  intro sections
  induction sections with
  | nil => intro log x h; exact h
  | cons s rest ih =>
    intro log x h
    show x ∈ (pruneSections skip rest (pruneSection skip s log).2).2.removed
    exact ih _ x (pruneSection_removed_mono skip s log x h)

theorem pruneFrameworks_removed_mem (skip : List String) :
    ∀ (fws : List FrameworkGroup) (log : ChangeLog) (fw : FrameworkGroup) (e : NavItem),
      fw ∈ fws → e ∈ fw.children → skip.contains e.to' = true →
      e.to' ∈ (pruneFrameworks skip fws log).2.removed := by
  intro fws
  induction fws with
  | nil => intro log fw e h; cases h
  | cons fw0 rest ih =>
    intro log fw e hfw he hs
    cases hfw with
    | head =>
      show e.to' ∈ (pruneFrameworks skip rest (removeSkipped fw0.children skip log).2).2.removed
      apply pruneFrameworks_removed_mono
      show e.to' ∈ log.removed ++ (removeSkippedList fw0.children skip).2
      exact List.mem_append_right _ (removeSkippedList_snd_mem _ _ _ he hs)
    | tail _ hmem =>
      show e.to' ∈ (pruneFrameworks skip rest (removeSkipped fw0.children skip log).2).2.removed
      exact ih _ fw e hmem he hs

theorem pruneSections_removed_mem (skip : List String) :
    ∀ (sections : List Section) (log : ChangeLog) (s : Section) (e : NavItem),
      s ∈ sections →
      (e ∈ s.children ∨ ∃ fws, s.frameworks = some fws ∧ ∃ fw ∈ fws, e ∈ fw.children) →
      skip.contains e.to' = true →
      e.to' ∈ (pruneSections skip sections log).2.removed := by
  intro sections
  induction sections with
  | nil => intro log s e h; cases h
  | cons s0 rest ih =>
    intro log s e hs hd hc
    cases hs with
    | head =>
      show e.to' ∈ (pruneSections skip rest (pruneSection skip s0 log).2).2.removed
      apply pruneSections_removed_mono
      rcases hd with hch | ⟨fws, hf, fw, hfw, he⟩
      · unfold pruneSection
        cases hfr : s0.frameworks with
        | none =>
          simp only [hfr]
          show e.to' ∈ log.removed ++ (removeSkippedList s0.children skip).2
          exact List.mem_append_right _ (removeSkippedList_snd_mem _ _ _ hch hc)
        | some fws2 =>
          simp only [hfr]
          apply pruneFrameworks_removed_mono
          show e.to' ∈ log.removed ++ (removeSkippedList s0.children skip).2
          exact List.mem_append_right _ (removeSkippedList_snd_mem _ _ _ hch hc)
      · unfold pruneSection
        simp only [hf]
        exact pruneFrameworks_removed_mem skip fws _ fw e hfw he hc
    | tail _ hmem =>
      show e.to' ∈ (pruneSections skip rest (pruneSection skip s0 log).2).2.removed
      exact ih _ s e hmem hd hc

/-- Every entry of the loop's config whose route the run marked
skip-eligible is logged under removed by the pruning pass. -/
theorem processDocsConfig_removed (fs : FS) (dir : String) (config : DocsConfig)
    (cache : Cache) (q : Placement) (e : NavItem)
    (he : e ∈ containerAt (loopState fs dir config cache).pure.config q)
    (hs : e.to' ∈ (loopState fs dir config cache).pure.skipRoutes) :
    e.to' ∈ (processDocsConfig fs dir config cache).log.removed := by
  obtain ⟨s, hsec, hd⟩ := containerAt_mem_section _ q e he
  show e.to' ∈ (pruneSections (loopState fs dir config cache).pure.skipRoutes
    (loopState fs dir config cache).pure.config.sections
    (loopState fs dir config cache).pure.log).2.removed
  exact pruneSections_removed_mem _ _ _ s e hsec hd (contains_iff.mpr hs)

/-- No entry of the persisted config carries a skip-eligible route. -/
theorem processDocsConfig_no_skipped (fs : FS) (dir : String) (config : DocsConfig)
    (cache : Cache) (q : Placement) (e : NavItem)
    (he : e ∈ containerAt (processDocsConfig fs dir config cache).config q) :
    e.to' ∉ (loopState fs dir config cache).pure.skipRoutes := by
  have hc : containerAt (processDocsConfig fs dir config cache).config q =
      (containerAt (loopState fs dir config cache).pure.config q).filter
        (fun x => !((loopState fs dir config cache).pure.skipRoutes.contains x.to')) := by
    show containerAt (pruneConfig (loopState fs dir config cache).pure.config
      (loopState fs dir config cache).pure.skipRoutes
      (loopState fs dir config cache).pure.log).1 q = _
    rw [containerAt_prune, removeSkippedList_fst]
  rw [hc, List.mem_filter] at he
  intro hmem
  have h2 := he.2
  rw [contains_iff.mpr hmem] at h2
  cases h2

/-! ### Lemmas: the skip set of a pure pass -/

theorem classifyStep_skip_mono (dir : String) (idx : PlacementIndex) (st : PureState)
    (filePath route : String) (fm : Option FrontmatterInfo) (r : String)
    (h : r ∈ st.skipRoutes) :
    r ∈ (classifyStep dir idx st filePath route fm).skipRoutes := by
  cases fm with
  | none => exact h
  | some frontmatter =>
    simp only [classifyStep]
    cases hT : (!strTruthy frontmatter.title) with
    | true => exact h
    | false =>
      by_cases hS : frontmatter.skip = some true
      · simp only [if_pos hS]
        exact mem_setAdd_of_mem _ _ _ h
      · simp only [if_neg hS]
        cases hp : findPlacement route idx with
        | none => exact h
        | some placement => exact h

theorem pureStep_skip_mono (O : String → Option FrontmatterInfo) (dir cp : String)
    (idx : PlacementIndex) (st : PureState) (p r : String) (h : r ∈ st.skipRoutes) :
    r ∈ (pureStep O dir cp idx st p).skipRoutes := by
  unfold pureStep
  by_cases hc : p = cp
  · rw [if_pos hc]; exact h
  · simp only [if_neg hc]
    cases hr : (isReadme (basename p) || isDraft (basename p)) with
    | true => exact mem_setAdd_of_mem _ _ _ h
    | false => exact classifyStep_skip_mono _ _ _ _ _ _ _ h

theorem pureFold_skip_mono (O : String → Option FrontmatterInfo) (dir cp : String)
    (idx : PlacementIndex) :
    ∀ (files : List String) (st : PureState) (r : String), r ∈ st.skipRoutes →
      r ∈ (files.foldl (pureStep O dir cp idx) st).skipRoutes := by
  intro files
  induction files with
  | nil => intro st r h; exact h
  | cons p rest ih =>
    intro st r h
    exact ih (pureStep O dir cp idx st p) r (pureStep_skip_mono O dir cp idx st p r h)

/-- A scanned readme/draft file, or one whose oracle info is titled
with skip true, puts its route into the pass's skip set. -/
theorem pureFold_skip_mem (O : String → Option FrontmatterInfo) (dir cp : String)
    (idx : PlacementIndex) :
    ∀ (files : List String) (st : PureState) (p : String), p ∈ files → p ≠ cp →
      ((isReadme (basename p) || isDraft (basename p)) = true ∨
        ∃ i, O p = some i ∧ strTruthy i.title = true ∧ i.skip = some true) →
      routeFromFile dir p ∈ (files.foldl (pureStep O dir cp idx) st).skipRoutes := by
  intro files
  induction files with
  | nil => intro st p hp; cases hp
  | cons q rest ih =>
    intro st p hp hcp hcase
    cases hp with
    | head =>
      show routeFromFile dir q ∈
        (rest.foldl (pureStep O dir cp idx) (pureStep O dir cp idx st q)).skipRoutes
      apply pureFold_skip_mono
      unfold pureStep
      simp only [if_neg hcp]
      rcases hcase with hrd | ⟨i, hOi, hti, hsk⟩
      · rw [hrd]
        exact mem_setAdd _ _
      · cases hr : (isReadme (basename q) || isDraft (basename q)) with
        | true => exact mem_setAdd _ _
        | false =>
          rw [hOi]
          simp only [classifyStep, hti, Bool.not_true, hsk]
          exact mem_setAdd _ _
    | tail _ hmem => exact ih (pureStep O dir cp idx st q) p hmem hcp hcase

/-- A scanned file whose frontmatter resolves (against the run's final
cache) to a titled info with skip true puts its route into the run's
skip set. -/
theorem processDocsConfig_skip_route (fs : FS) (dir : String) (config : DocsConfig)
    (cache : Cache) (p : String) (info : FrontmatterInfo)
    (hp : p ∈ listContentFiles fs dir) (hcp : p ≠ dir ++ "/config.json")
    (hO : (readDocInfo fs dir p (processDocsConfig fs dir config cache).cache).1 = some info)
    (ht : strTruthy info.title = true) (hsk : info.skip = some true) :
    routeFromFile dir p ∈ (loopState fs dir config cache).pure.skipRoutes := by
  have hpure := runLoop_pure fs dir (dir ++ "/config.json") (buildPlacementIndex config)
    (listContentFiles fs dir) ⟨{ config := config }, cache⟩
  show routeFromFile dir p ∈ (runLoop fs dir (dir ++ "/config.json")
    (buildPlacementIndex config) ⟨{ config := config }, cache⟩
    (listContentFiles fs dir)).pure.skipRoutes
  rw [hpure]
  apply pureFold_skip_mem _ _ _ _ _ _ p hp hcp
  exact Or.inr ⟨info, hO, ht, hsk⟩

/-- A second pass over the same root reuses the cache of the first
untouched, whatever config it starts from. -/
theorem processDocsConfig_cache_frozen (fs : FS) (dir : String) (config : DocsConfig)
    (cache : Cache) (config' : DocsConfig) :
    (processDocsConfig fs dir config'
        (processDocsConfig fs dir config cache).cache).cache =
      (processDocsConfig fs dir config cache).cache := by
  show (runLoop fs dir (dir ++ "/config.json") (buildPlacementIndex config')
      ⟨{ config := config' }, (processDocsConfig fs dir config cache).cache⟩
      (listContentFiles fs dir)).cache = (processDocsConfig fs dir config cache).cache
  apply runLoop_cache_frozen
  intro p hp hcp hrd
  obtain ⟨v, hv⟩ := runLoop_cache_records fs dir (dir ++ "/config.json")
    (buildPlacementIndex config) (listContentFiles fs dir)
    ⟨{ config := config }, cache⟩ p hp hcp hrd
  show (mapGet (runLoop fs dir (dir ++ "/config.json") (buildPlacementIndex config)
    ⟨{ config := config }, cache⟩ (listContentFiles fs dir)).cache (resolveOne p)).isSome = true
  rw [hv]
  rfl

/-- A property of single-pass outputs started from the frozen cache
holds of every iterated run from it. -/
theorem iterRuns_preserved (fs : FS) (dir : String) (config : DocsConfig) (cache : Cache)
    (P : DocsConfig → Prop)
    (hP : ∀ config', P (processDocsConfig fs dir config'
      (processDocsConfig fs dir config cache).cache).config) :
    ∀ (n : Nat) (config' : DocsConfig), 1 ≤ n →
      P (iterRuns fs dir n config' (processDocsConfig fs dir config cache).cache).1 := by
  intro n
  induction n with
  | zero => intro config' h; omega
  | succ m ih =>
    intro config' h
    show P (iterRuns fs dir m
      (processDocsConfig fs dir config' (processDocsConfig fs dir config cache).cache).config
      (processDocsConfig fs dir config' (processDocsConfig fs dir config cache).cache).cache).1
    rw [processDocsConfig_cache_frozen fs dir config cache config']
    cases m with
    | zero => exact hP config'
    | succ m' => exact ih _ (by omega)

/-! ### Claim C4 -/

/-- C4 counterexample: a file whose resolved skip is true but whose
frontmatter has no title is NOT pruned.  The title check precedes the
skip check, so the file lands under missingFrontmatter: its nav entry
survives the pass and nothing is logged under removed, although the
claim's skip-eligible set (files whose resolved skip is true) contains
its route. -/
theorem c4_counterexample :
    (readDocInfo [("/docs/r/a.md", "---\nskip: true\n---\n")] "/docs/r" "/docs/r/a.md" []).1 =
      some { title := none, skip := some true, ref := none } ∧
    (processDocsConfig [("/docs/r/a.md", "---\nskip: true\n---\n")] "/docs/r"
        { sections := [{ label := "S", children := [⟨"A", "a", none⟩] }] } []).log.removed
      = [] ∧
    (⟨"A", "a", none⟩ : NavItem) ∈ containerAt (processDocsConfig
        [("/docs/r/a.md", "---\nskip: true\n---\n")] "/docs/r"
        { sections := [{ label := "S", children := [⟨"A", "a", none⟩] }] } []).config
      ⟨0, none⟩ := by
  refine ⟨?_, ?_, ?_⟩ <;> decide

/-- C4 (amended): skip pruning.  (1) After the scan, every entry of the
loop's config whose route is in the run's skip set (readme and draft
routes, plus routes of files whose resolved frontmatter has a truthy
title and skip true - but not untitled skip files, which fall under
missingFrontmatter first) is removed from every container and logged
under removed, and no entry of the persisted config carries a route of
the skip set.  (2) A scanned file whose frontmatter resolves against
the run's cache to a truthy title with skip true is never present in
any container after any positive number of iterated runs. -/
theorem c4_skip_pruning :
    (∀ (fs : FS) (dir : String) (config : DocsConfig) (cache : Cache) (q : Placement)
        (e : NavItem),
        (e ∈ containerAt (loopState fs dir config cache).pure.config q →
          e.to' ∈ (loopState fs dir config cache).pure.skipRoutes →
          e.to' ∈ (processDocsConfig fs dir config cache).log.removed) ∧
        (e ∈ containerAt (processDocsConfig fs dir config cache).config q →
          e.to' ∉ (loopState fs dir config cache).pure.skipRoutes)) ∧
    (∀ (fs : FS) (dir : String) (config : DocsConfig) (cache : Cache) (p : String)
        (info : FrontmatterInfo),
        p ∈ listContentFiles fs dir → p ≠ dir ++ "/config.json" →
        (readDocInfo fs dir p (processDocsConfig fs dir config cache).cache).1 = some info →
        strTruthy info.title = true → info.skip = some true →
        ∀ (n : Nat), 1 ≤ n → ∀ (q : Placement) (e : NavItem),
          e ∈ containerAt (iterRuns fs dir n config cache).1 q →
          e.to' ≠ routeFromFile dir p) := by
  constructor
  · intro fs dir config cache q e
    exact ⟨processDocsConfig_removed fs dir config cache q e,
      processDocsConfig_no_skipped fs dir config cache q e⟩
  · intro fs dir config cache p info hp hcp hO ht hsk n hn q e he
    obtain ⟨m, rfl⟩ : ∃ m, n = m + 1 := ⟨n - 1, by omega⟩
    cases m with
    | zero =>
      have he1 : e ∈ containerAt (processDocsConfig fs dir config cache).config q := he
      have hski := processDocsConfig_skip_route fs dir config cache p info hp hcp hO ht hsk
      have hno := processDocsConfig_no_skipped fs dir config cache q e he1
      intro heq
      rw [heq] at hno
      exact hno hski
    | succ m' =>
      refine iterRuns_preserved fs dir config cache
        (fun cfg => ∀ (q' : Placement) (e' : NavItem), e' ∈ containerAt cfg q' →
          e'.to' ≠ routeFromFile dir p) ?_ (m' + 1)
        (processDocsConfig fs dir config cache).config (by omega) q e he
      intro config' q' e' he'
      have hO2 : (readDocInfo fs dir p (processDocsConfig fs dir config'
          (processDocsConfig fs dir config cache).cache).cache).1 = some info := by
        rw [processDocsConfig_cache_frozen fs dir config cache config']
        exact hO
      have hsk2 := processDocsConfig_skip_route fs dir config'
        (processDocsConfig fs dir config cache).cache p info hp hcp hO2 ht hsk
      have hno2 := processDocsConfig_no_skipped fs dir config'
        (processDocsConfig fs dir config cache).cache q' e' he'
      intro heq
      rw [heq] at hno2
      exact hno2 hsk2

/-- Witness for C4: a titled skip file's pre-existing entry is logged
under removed, and an unrelated entry surviving two iterated runs does
not carry the skip file's route. -/
theorem c4_skip_pruning_witness :
    "a" ∈ (processDocsConfig [("/docs/r/a.md", "---\ntitle: A\nskip: true\n---\n")] "/docs/r"
        { sections := [{ label := "S", children := [⟨"A", "a", none⟩] }] } []).log.removed ∧
    (⟨"C", "c", none⟩ : NavItem).to' ≠ routeFromFile "/docs/r" "/docs/r/b.md" :=
  ⟨(c4_skip_pruning.1 [("/docs/r/a.md", "---\ntitle: A\nskip: true\n---\n")] "/docs/r"
      { sections := [{ label := "S", children := [⟨"A", "a", none⟩] }] } [] ⟨0, none⟩
      ⟨"A", "a", none⟩).1 (by decide) (by decide),
    c4_skip_pruning.2 [("/docs/r/b.md", "---\ntitle: B\nskip: true\n---\n")] "/docs/r"
      { sections := [{ label := "S", children := [⟨"B", "b", none⟩, ⟨"C", "c", none⟩] }] } []
      "/docs/r/b.md" { title := some "B", skip := some true, ref := none }
      (by decide) (by decide) (by decide) (by decide) (by decide) 2 (by decide)
      ⟨0, none⟩ ⟨"C", "c", none⟩ (by decide)⟩

/-! ### Lemmas: the ancestor chain as a total order -/

theorem lastIdxOf_lt (c : Char) (l : List Char) (i : Nat) (h : lastIdxOf c l = some i) :
    i < l.length := by
  unfold lastIdxOf at h
  cases hf : l.reverse.findIdx? (fun x => x = c) with
  | none => rw [hf] at h; cases h
  | some k =>
    rw [hf] at h
    have hi : i = l.length - 1 - k := (Option.some_inj.mp h).symm
    cases l with
    | nil => simp at hf
    | cons x rest =>
      subst hi
      simp only [List.length_cons]
      omega

theorem parentRoute_length_lt (route : String) (hr : route ≠ "") :
    (parentRoute route).length < route.length := by
  unfold parentRoute
  cases hl : lastIdxOf '/' route.toList with
  | none =>
    show ("" : String).length < route.length
    have hne : route.toList ≠ [] := fun h0 => hr (String.ext (by simpa using h0))
    exact List.length_pos.mpr hne
  | some i =>
    have hlt := lastIdxOf_lt '/' route.toList i hl
    show (String.mk (route.toList.take i)).length < route.length
    show (route.toList.take i).length < route.length
    rw [List.length_take]
    have : route.toList.length = route.length := rfl
    omega

theorem chainRoutesAux_stable : ∀ (fuel₁ fuel₂ : Nat) (route : String),
    route.length < fuel₁ → route.length < fuel₂ →
    chainRoutesAux fuel₁ route = chainRoutesAux fuel₂ route := by
  intro fuel₁
  induction fuel₁ using Nat.strong_induction_on with
  | _ fuel₁ ih =>
    intro fuel₂ route h1 h2
    obtain ⟨m, rfl⟩ : ∃ m, fuel₁ = m + 1 := ⟨fuel₁ - 1, by omega⟩
    obtain ⟨n, rfl⟩ : ∃ n, fuel₂ = n + 1 := ⟨fuel₂ - 1, by omega⟩
    unfold chainRoutesAux
    by_cases hr : route = ""
    · rw [if_pos hr, if_pos hr]
    · rw [if_neg hr, if_neg hr]
      congr 1
      show (if (parentRoute route = "" || parentRoute route = route) then ([] : List String)
          else chainRoutesAux m (parentRoute route)) =
        (if (parentRoute route = "" || parentRoute route = route) then ([] : List String)
          else chainRoutesAux n (parentRoute route))
      by_cases hp : (parentRoute route = "" || parentRoute route = route) = true
      · rw [if_pos hp, if_pos hp]
      · rw [if_neg hp, if_neg hp]
        have hlt := parentRoute_length_lt route hr
        exact ih m (by omega) n (parentRoute route) (by omega) (by omega)

theorem chainRoutes_nil : chainRoutes "" = [] := rfl

theorem chainRoutes_cons (route : String) (hr : route ≠ "") (hp : parentRoute route ≠ "") :
    chainRoutes route = route :: chainRoutes (parentRoute route) := by
  have hlt := parentRoute_length_lt route hr
  have hne : parentRoute route ≠ route := fun he => by rw [he] at hlt; omega
  unfold chainRoutes chainRoutesAux
  rw [if_neg hr]
  congr 1
  show (if (parentRoute route = "" || parentRoute route = route) then ([] : List String)
      else chainRoutesAux route.length (parentRoute route)) =
    chainRoutesAux ((parentRoute route).length + 1) (parentRoute route)
  have hcond : (parentRoute route = "" || parentRoute route = route) = false := by
    simp [hp, hne]
  rw [hcond]
  show chainRoutesAux route.length (parentRoute route) =
    chainRoutesAux ((parentRoute route).length + 1) (parentRoute route)
  exact chainRoutesAux_stable route.length ((parentRoute route).length + 1)
    (parentRoute route) (by omega) (by omega)

theorem chainRoutes_single (route : String) (hr : route ≠ "") (hp : parentRoute route = "") :
    chainRoutes route = [route] := by
  unfold chainRoutes chainRoutesAux
  rw [if_neg hr]
  congr 1
  show (if (parentRoute route = "" || parentRoute route = route) then ([] : List String)
      else chainRoutesAux route.length (parentRoute route)) = []
  have hcond : (parentRoute route = "" || parentRoute route = route) = true := by
    simp [hp]
  rw [hcond]
  rfl

theorem mem_chain_self (route : String) (hr : route ≠ "") : route ∈ chainRoutes route := by
  by_cases hp : parentRoute route = ""
  · rw [chainRoutes_single route hr hp]; exact List.mem_singleton.mpr rfl
  · rw [chainRoutes_cons route hr hp]; exact List.mem_cons_self _ _

theorem chainRoutes_sub_aux : ∀ (n : Nat) (route : String), route.length ≤ n →
    ∀ x ∈ chainRoutes route, ∀ y ∈ chainRoutes x, y ∈ chainRoutes route := by
  intro n
  induction n with
  | zero =>
    intro route hle x hx
    have hr : route = "" := by
      cases route with
      | mk data =>
        cases data with
        | nil => rfl
        | cons c cs => simp [String.length] at hle
    rw [hr, chainRoutes_nil] at hx
    cases hx
  | succ m ih =>
    intro route hle x hx y hy
    by_cases hr : route = ""
    · rw [hr, chainRoutes_nil] at hx; cases hx
    · by_cases hp : parentRoute route = ""
      · rw [chainRoutes_single route hr hp] at hx
        rw [List.mem_singleton] at hx
        subst hx
        exact hy
      · rw [chainRoutes_cons route hr hp] at hx
        rcases List.mem_cons.mp hx with heq | hx'
        · subst heq; exact hy
        · have hplt := parentRoute_length_lt route hr
          rw [chainRoutes_cons route hr hp]
          exact List.mem_cons_of_mem _ (ih (parentRoute route) (by omega) x hx' y hy)

theorem chainRoutes_sub (route x y : String) (hx : x ∈ chainRoutes route)
    (hy : y ∈ chainRoutes x) : y ∈ chainRoutes route :=
  chainRoutes_sub_aux route.length route (Nat.le_refl _) x hx y hy

theorem chainRoutes_total_aux : ∀ (n : Nat) (route : String), route.length ≤ n →
    ∀ x ∈ chainRoutes route, ∀ y ∈ chainRoutes route,
      x ∈ chainRoutes y ∨ y ∈ chainRoutes x := by
  intro n
  induction n with
  | zero =>
    intro route hle x hx
    have hr : route = "" := by
      cases route with
      | mk data =>
        cases data with
        | nil => rfl
        | cons c cs => simp [String.length] at hle
    rw [hr, chainRoutes_nil] at hx
    cases hx
  | succ m ih =>
    intro route hle x hx y hy
    by_cases hr : route = ""
    · rw [hr, chainRoutes_nil] at hx; cases hx
    · by_cases hp : parentRoute route = ""
      · rw [chainRoutes_single route hr hp] at hx hy
        rw [List.mem_singleton] at hx hy
        rw [hx, hy]
        exact Or.inl (mem_chain_self route hr)
      · rcases List.mem_cons.mp (by rw [← chainRoutes_cons route hr hp]; exact hx) with heqx | hx'
        · exact Or.inr (by rw [heqx]; exact hy)
        · rcases List.mem_cons.mp (by rw [← chainRoutes_cons route hr hp]; exact hy) with heqy | hy'
          · exact Or.inl (by rw [heqy]; exact hx)
          · have hplt := parentRoute_length_lt route hr
            exact ih (parentRoute route) (by omega) x hx' y hy'

theorem chainRoutes_total (route x y : String) (hx : x ∈ chainRoutes route)
    (hy : y ∈ chainRoutes route) : x ∈ chainRoutes y ∨ y ∈ chainRoutes x :=
  chainRoutes_total_aux route.length route (Nat.le_refl _) x hx y hy

/-! ### Lemmas: findPlacement through the coverage of a config -/

theorem byDir_firstRegistrant (config : DocsConfig) (a : String) :
    mapGet (buildPlacementIndex config).byDir a =
      firstRegistrant a (registrations config) := by
  unfold buildPlacementIndex
  rw [mapGet_regsFold_byDir]
  simp [mapGet]

theorem byDir_mem (config : DocsConfig) (a : String) (v : Placement)
    (h : mapGet (buildPlacementIndex config).byDir a = some v) :
    ∃ t, (t, v) ∈ registrations config ∧ a ∈ chainRoutes t := by
  rw [byDir_firstRegistrant] at h
  unfold firstRegistrant at h
  cases hf : (registrations config).find? (fun rp => (chainRoutes rp.1).contains a) with
  | none => rw [hf] at h; cases h
  | some rp =>
    rw [hf] at h
    have hmem := List.mem_of_find?_eq_some hf
    have hpred := List.find?_some hf
    have hv : rp.2 = v := by simpa using h
    refine ⟨rp.1, ?_, contains_iff.mp (by simpa using hpred)⟩
    rw [← hv]
    exact hmem

theorem firstHit_none (idx : PlacementIndex) :
    ∀ (l : List String), (∀ x ∈ l, mapGet idx.byRoute x = none ∧ mapGet idx.byDir x = none) →
    firstHit idx l = none := by
  intro l
  induction l with
  | nil => intro h; rfl
  | cons x rest ih =>
    intro h
    unfold firstHit
    obtain ⟨h1, h2⟩ := h x (List.mem_cons_self x rest)
    rw [h1, h2]
    exact ih (fun y hy => h y (List.mem_cons_of_mem x hy))

theorem firstHit_some (idx : PlacementIndex) :
    ∀ (l : List String) (loc : Placement), firstHit idx l = some loc →
      ∃ x ∈ l, mapGet idx.byRoute x = some loc ∨
        (mapGet idx.byRoute x = none ∧ mapGet idx.byDir x = some loc) := by
  intro l
  induction l with
  | nil => intro loc h; cases h
  | cons x rest ih =>
    intro loc h
    unfold firstHit at h
    cases hbr : mapGet idx.byRoute x with
    | some v =>
      rw [hbr] at h
      have hv : (some v : Option Placement) = some loc := h
      exact ⟨x, List.mem_cons_self x rest, Or.inl (hbr.trans hv)⟩
    | none =>
      rw [hbr] at h
      cases hbd : mapGet idx.byDir x with
      | some v =>
        rw [hbd] at h
        have hv : (some v : Option Placement) = some loc := h
        exact ⟨x, List.mem_cons_self x rest, Or.inr ⟨hbr, hbd.trans hv⟩⟩
      | none =>
        rw [hbd] at h
        have h' : firstHit idx rest = some loc := h
        obtain ⟨y, hy, hc⟩ := ih loc h'
        exact ⟨y, List.mem_cons_of_mem x hy, hc⟩

/-- The routes a config's placement index can answer for: a route of a
registration, or a member of a registration route's ancestor walk. -/
def covers (config : DocsConfig) (x : String) : Prop :=
  ∃ rp ∈ registrations config, rp.1 = x ∨ x ∈ chainRoutes rp.1

theorem covers_down (config : DocsConfig) (x y : String) (h : covers config x)
    (hy : y ∈ chainRoutes x) : covers config y := by
  obtain ⟨rp, hrp, hd⟩ := h
  rcases hd with heq | hx
  · exact ⟨rp, hrp, Or.inr (by rw [heq]; exact hy)⟩
  · exact ⟨rp, hrp, Or.inr (chainRoutes_sub rp.1 x y hx hy)⟩

theorem findPlacement_none_covers (config : DocsConfig) (r : String)
    (h : ∀ x ∈ chainRoutes r, ¬covers config x) :
    findPlacement r (buildPlacementIndex config) = none := by
  unfold findPlacement
  apply firstHit_none
  intro x hx
  constructor
  · apply byRoute_none
    intro rp hrp heq
    exact h x hx ⟨rp, hrp, Or.inl heq⟩
  · apply byDir_none
    intro rp hrp hchain
    exact h x hx ⟨rp, hrp, Or.inr hchain⟩

theorem findPlacement_some_covers (config : DocsConfig) (r : String) (loc : Placement)
    (h : findPlacement r (buildPlacementIndex config) = some loc) :
    ∃ x ∈ chainRoutes r, covers config x := by
  unfold findPlacement at h
  obtain ⟨x, hx, hc⟩ := firstHit_some _ _ _ h
  refine ⟨x, hx, ?_⟩
  rcases hc with hbr | ⟨hnone, hbd⟩
  · exact ⟨(x, loc), byRoute_mem config x loc hbr, Or.inl rfl⟩
  · obtain ⟨t, hreg, hchain⟩ := byDir_mem config x loc hbd
    exact ⟨(t, loc), hreg, Or.inr hchain⟩

theorem findPlacement_valid (config : DocsConfig) (r : String) (loc : Placement)
    (h : findPlacement r (buildPlacementIndex config) = some loc) :
    locValid config loc := by
  unfold findPlacement at h
  obtain ⟨x, hx, hc⟩ := firstHit_some _ _ _ h
  rcases hc with hbr | ⟨hnone, hbd⟩
  · exact (registrations_spec config x loc (byRoute_mem config x loc hbr)).1
  · obtain ⟨t, hreg, hchain⟩ := byDir_mem config x loc hbd
    exact (registrations_spec config t loc hreg).1

theorem findPlacement_route_ne_empty (idx : PlacementIndex) (r : String) (loc : Placement)
    (h : findPlacement r idx = some loc) : r ≠ "" := by
  intro he
  rw [he] at h
  unfold findPlacement at h
  rw [chainRoutes_nil] at h
  exact Option.noConfusion h

theorem findPlacement_of_byRoute (idx : PlacementIndex) (r : String) (v : Placement)
    (hr : r ≠ "") (h : mapGet idx.byRoute r = some v) :
    findPlacement r idx = some v := by
  unfold findPlacement
  by_cases hp : parentRoute r = ""
  · rw [chainRoutes_single r hr hp]
    unfold firstHit
    rw [h]
    rfl
  · rw [chainRoutes_cons r hr hp]
    unfold firstHit
    rw [h]
    rfl

/-! ### Lemmas: the oracle-driven pure pass, structurally -/

theorem pureStep_extends (O : String → Option FrontmatterInfo) (dir cp : String)
    (idx : PlacementIndex) (st : PureState) (p : String) (q : Placement) :
    ∃ A, containerAt (pureStep O dir cp idx st p).config q =
      containerAt st.config q ++ A := by
  unfold pureStep
  by_cases hc : p = cp
  · rw [if_pos hc]; exact ⟨[], by simp⟩
  · simp only [if_neg hc]
    cases hr : (isReadme (basename p) || isDraft (basename p)) with
    | true => exact ⟨[], by simp⟩
    | false => exact classifyStep_extends _ _ _ _ _ _ q

theorem pureFold_extends (O : String → Option FrontmatterInfo) (dir cp : String)
    (idx : PlacementIndex) :
    ∀ (files : List String) (st : PureState) (q : Placement),
      ∃ A, containerAt (files.foldl (pureStep O dir cp idx) st).config q =
        containerAt st.config q ++ A := by
  intro files
  induction files with
  | nil => intro st q; exact ⟨[], by simp⟩
  | cons p rest ih =>
    intro st q
    obtain ⟨A1, h1⟩ := pureStep_extends O dir cp idx st p q
    obtain ⟨A2, h2⟩ := ih (pureStep O dir cp idx st p) q
    refine ⟨A1 ++ A2, ?_⟩
    show containerAt (rest.foldl (pureStep O dir cp idx)
      (pureStep O dir cp idx st p)).config q = _
    rw [h2, h1, List.append_assoc]

theorem pureStep_skeleton (O : String → Option FrontmatterInfo) (dir cp : String)
    (idx : PlacementIndex) (st : PureState) (p : String) :
    sameSkeleton (pureStep O dir cp idx st p).config st.config := by
  unfold pureStep
  by_cases hc : p = cp
  · rw [if_pos hc]; exact sameSkeleton_refl _
  · simp only [if_neg hc]
    cases hr : (isReadme (basename p) || isDraft (basename p)) with
    | true => exact sameSkeleton_refl _
    | false => exact classifyStep_skeleton _ _ _ _ _ _

theorem pureFold_skeleton (O : String → Option FrontmatterInfo) (dir cp : String)
    (idx : PlacementIndex) :
    ∀ (files : List String) (st : PureState),
      sameSkeleton (files.foldl (pureStep O dir cp idx) st).config st.config := by
  intro files
  induction files with
  | nil => intro st; exact sameSkeleton_refl _
  | cons p rest ih =>
    intro st
    exact sameSkeleton_trans (ih (pureStep O dir cp idx st p))
      (pureStep_skeleton O dir cp idx st p)

theorem locValid_of_skeleton (a b : DocsConfig) (h : sameSkeleton a b) (loc : Placement)
    (hv : locValid b loc) : locValid a loc := by
  obtain ⟨hd, hu, hex, hlen, hlab, hfw⟩ := h
  unfold locValid at hv ⊢
  cases hgb : b.sections.get? loc.sectionIdx with
  | none => rw [hgb] at hv; exact hv.elim
  | some sb =>
    rw [hgb] at hv
    cases hga : a.sections.get? loc.sectionIdx with
    | none =>
      have hlab' := hlab loc.sectionIdx
      rw [hga, hgb] at hlab'
      cases hlab'
    | some sa =>
      cases hqf : loc.frameworkIdx with
      | none => trivial
      | some j =>
        rw [hqf] at hv
        have hv2 : (match sb.frameworks with
            | none => False
            | some fws => j < fws.length) := hv
        have hfweq := hfw loc.sectionIdx
        rw [hga, hgb] at hfweq
        have hfweq' : sa.frameworks.map (List.map FrameworkGroup.label) =
            sb.frameworks.map (List.map FrameworkGroup.label) := by simpa using hfweq
        show (match sa.frameworks with
          | none => False
          | some fws => j < fws.length)
        cases hfb : sb.frameworks with
        | none => rw [hfb] at hv2; exact hv2.elim
        | some fwsb =>
          rw [hfb] at hv2 hfweq'
          cases hfa : sa.frameworks with
          | none => rw [hfa] at hfweq'; cases hfweq'
          | some fwsa =>
            rw [hfa] at hfweq'
            have h3 : fwsa.map FrameworkGroup.label = fwsb.map FrameworkGroup.label := by
              simpa using hfweq'
            have h4 := congrArg List.length h3
            simp only [List.length_map] at h4
            show j < fwsa.length
            omega

theorem ensureNavItem_present (container : List NavItem) (item : NavItem) (log : ChangeLog) :
    ∃ e ∈ (ensureNavItem container item log).1, e.to' = item.to' := by
  unfold ensureNavItem
  cases hf : container.find? (fun entry => entry.to' == item.to') with
  | none => exact ⟨item, by simp, rfl⟩
  | some ex =>
    have hex : ex.to' = item.to' := by simpa using List.find?_some hf
    have hmem := List.mem_of_find?_eq_some hf
    by_cases hl : ex.label ≠ item.label
    · simp only [if_pos hl]
      exact ⟨ex, hmem, hex⟩
    · simp only [if_neg hl]
      exact ⟨ex, hmem, hex⟩

/-- Any entry of a container after a classify step was either already
there or carries the processed route, which the index then matches. -/
theorem classifyStep_new_entries (dir : String) (idx : PlacementIndex) (st : PureState)
    (filePath route : String) (fm : Option FrontmatterInfo) (q : Placement) (e : NavItem)
    (he : e ∈ containerAt (classifyStep dir idx st filePath route fm).config q) :
    e ∈ containerAt st.config q ∨
      (e.to' = route ∧ (findPlacement route idx).isSome = true) := by
  cases fm with
  | none => exact Or.inl he
  | some frontmatter =>
    simp only [classifyStep] at he
    revert he
    cases hT : (!strTruthy frontmatter.title) with
    | true => exact fun he => Or.inl he
    | false =>
      by_cases hS : frontmatter.skip = some true
      · rw [if_pos hS]
        exact fun he => Or.inl he
      · rw [if_neg hS]
        cases hp : findPlacement route idx with
        | none => exact fun he => Or.inl he
        | some placement =>
          intro he
          have he' : e ∈ containerAt (updateContainer st.config placement
              (ensureNavItem (containerAt st.config placement)
                ⟨String.mk (trimChars (frontmatter.title.getD "").toList), route, none⟩
                st.log).1) q := he
          by_cases hqp : q = placement
          · rw [hqp] at he' ⊢
            rcases containerAt_update_cases st.config placement
                (ensureNavItem (containerAt st.config placement)
                  ⟨String.mk (trimChars (frontmatter.title.getD "").toList), route, none⟩
                  st.log).1 placement with hc | hc
            · rw [hc] at he'; exact Or.inl he'
            · rw [hc] at he'
              rcases ensureNavItem_extends (containerAt st.config placement)
                  ⟨String.mk (trimChars (frontmatter.title.getD "").toList), route, none⟩
                  st.log with hee | hee
              · rw [hee] at he'; exact Or.inl he'
              · rw [hee] at he'
                rcases List.mem_append.mp he' with h1 | h2
                · exact Or.inl h1
                · rw [List.mem_singleton] at h2
                  rw [h2]
                  exact Or.inr ⟨rfl, rfl⟩
          · rw [containerAt_update_of_ne _ _ _ _ hqp] at he'
            exact Or.inl he'

theorem pureStep_new_entries (O : String → Option FrontmatterInfo) (dir cp : String)
    (idx : PlacementIndex) (st : PureState) (p : String) (q : Placement) (e : NavItem)
    (he : e ∈ containerAt (pureStep O dir cp idx st p).config q) :
    e ∈ containerAt st.config q ∨
      (e.to' = routeFromFile dir p ∧
        (findPlacement (routeFromFile dir p) idx).isSome = true) := by
  unfold pureStep at he
  by_cases hc : p = cp
  · rw [if_pos hc] at he; exact Or.inl he
  · simp only [if_neg hc] at he
    cases hr : (isReadme (basename p) || isDraft (basename p)) with
    | true => rw [hr] at he; exact Or.inl he
    | false =>
      rw [hr] at he
      have he' : e ∈ containerAt (classifyStep dir idx
          { st with seenRoutes := setAdd st.seenRoutes (routeFromFile dir p) }
          p (routeFromFile dir p) (O p)).config q := he
      rcases classifyStep_new_entries dir idx _ p (routeFromFile dir p) (O p) q e he'
        with h1 | h2
      · exact Or.inl h1
      · exact Or.inr h2

theorem pureFold_new_entries (O : String → Option FrontmatterInfo) (dir cp : String)
    (idx : PlacementIndex) :
    ∀ (files : List String) (st : PureState) (q : Placement) (e : NavItem),
      e ∈ containerAt (files.foldl (pureStep O dir cp idx) st).config q →
      e ∈ containerAt st.config q ∨
        ∃ p ∈ files, e.to' = routeFromFile dir p ∧
          (findPlacement (routeFromFile dir p) idx).isSome = true := by
  intro files
  induction files with
  | nil => intro st q e he; exact Or.inl he
  | cons p0 rest ih =>
    intro st q e he
    rcases ih (pureStep O dir cp idx st p0) q e he with h1 | ⟨p, hp, h2⟩
    · rcases pureStep_new_entries O dir cp idx st p0 q e h1 with ha | hb
      · exact Or.inl ha
      · exact Or.inr ⟨p0, List.mem_cons_self _ _, hb⟩
    · exact Or.inr ⟨p, List.mem_cons_of_mem _ hp, h2⟩

/-- A titled, unskipped, matched file leaves an entry with its route
in the matched container, for the rest of the pass. -/
theorem pureFold_places (O : String → Option FrontmatterInfo) (dir cp : String)
    (idx : PlacementIndex) :
    ∀ (files : List String) (st : PureState) (p : String) (i : FrontmatterInfo)
      (loc : Placement),
      p ∈ files → p ≠ cp → (isReadme (basename p) || isDraft (basename p)) = false →
      O p = some i → strTruthy i.title = true → ¬(i.skip = some true) →
      findPlacement (routeFromFile dir p) idx = some loc →
      locValid st.config loc →
      ∃ e ∈ containerAt (files.foldl (pureStep O dir cp idx) st).config loc,
        e.to' = routeFromFile dir p := by
  intro files
  induction files with
  | nil => intro st p i loc hp; cases hp
  | cons q0 rest ih =>
    intro st p i loc hp hcp hrd hO ht hsk hfp hv
    rcases List.mem_cons.mp hp with heq | hmem
    · subst heq
      have hpres : ∃ e ∈ containerAt (pureStep O dir cp idx st p).config loc,
          e.to' = routeFromFile dir p := by
        unfold pureStep
        simp only [if_neg hcp]
        rw [hrd, hO]
        simp only [classifyStep]
        have hT : (!strTruthy i.title) = false := by rw [ht]; rfl
        rw [hT, if_neg hsk, hfp]
        show ∃ e ∈ containerAt (updateContainer st.config loc
            (ensureNavItem (containerAt st.config loc)
              ⟨String.mk (trimChars (i.title.getD "").toList), routeFromFile dir p, none⟩
              st.log).1) loc,
          e.to' = routeFromFile dir p
        rw [containerAt_update_self st.config loc _ hv]
        obtain ⟨e, he, heq⟩ := ensureNavItem_present (containerAt st.config loc)
          ⟨String.mk (trimChars (i.title.getD "").toList), routeFromFile dir p, none⟩ st.log
        exact ⟨e, he, heq⟩
      obtain ⟨e, he, heq⟩ := hpres
      obtain ⟨A, hA⟩ := pureFold_extends O dir cp idx rest (pureStep O dir cp idx st p) loc
      refine ⟨e, ?_, heq⟩
      show e ∈ containerAt (rest.foldl (pureStep O dir cp idx)
        (pureStep O dir cp idx st p)).config loc
      rw [hA]
      exact List.mem_append_left _ he
    · exact ih (pureStep O dir cp idx st q0) p i loc hmem hcp hrd hO ht hsk hfp
        (locValid_of_skeleton _ _ (pureStep_skeleton O dir cp idx st q0) loc hv)

/-! ### Lemmas: the skip set does not depend on the config or index -/

theorem classifyStep_routes_eq (dir : String) (idxA idxB : PlacementIndex)
    (stA stB : PureState) (p r : String) (fm : Option FrontmatterInfo)
    (hsk : stA.skipRoutes = stB.skipRoutes) :
    (classifyStep dir idxA stA p r fm).skipRoutes =
      (classifyStep dir idxB stB p r fm).skipRoutes := by
  cases fm with
  | none => exact hsk
  | some frontmatter =>
    simp only [classifyStep]
    cases hT : (!strTruthy frontmatter.title) with
    | true => exact hsk
    | false =>
      by_cases hS : frontmatter.skip = some true
      · simp only [if_pos hS]
        show setAdd stA.skipRoutes r = setAdd stB.skipRoutes r
        rw [hsk]
      · simp only [if_neg hS]
        cases hpA : findPlacement r idxA with
        | none =>
          cases hpB : findPlacement r idxB with
          | none => exact hsk
          | some locB => exact hsk
        | some locA =>
          cases hpB : findPlacement r idxB with
          | none => exact hsk
          | some locB => exact hsk

theorem pureStep_skip_eq (O : String → Option FrontmatterInfo) (dir cp : String)
    (idxA idxB : PlacementIndex) (stA stB : PureState) (p : String)
    (hsk : stA.skipRoutes = stB.skipRoutes) :
    (pureStep O dir cp idxA stA p).skipRoutes =
      (pureStep O dir cp idxB stB p).skipRoutes := by
  unfold pureStep
  by_cases hc : p = cp
  · rw [if_pos hc, if_pos hc]; exact hsk
  · simp only [if_neg hc]
    cases hr : (isReadme (basename p) || isDraft (basename p)) with
    | true =>
      show setAdd stA.skipRoutes _ = setAdd stB.skipRoutes _
      rw [hsk]
    | false => exact classifyStep_routes_eq dir idxA idxB _ _ p _ (O p) hsk

theorem pureFold_skip_eq (O : String → Option FrontmatterInfo) (dir cp : String)
    (idxA idxB : PlacementIndex) :
    ∀ (files : List String) (stA stB : PureState), stA.skipRoutes = stB.skipRoutes →
      (files.foldl (pureStep O dir cp idxA) stA).skipRoutes =
        (files.foldl (pureStep O dir cp idxB) stB).skipRoutes := by
  intro files
  induction files with
  | nil => intro stA stB h; exact h
  | cons p rest ih =>
    intro stA stB h
    exact ih _ _ (pureStep_skip_eq O dir cp idxA idxB stA stB p h)

/-! ### Config extensionality from skeleton and containers -/

theorem config_ext (a b : DocsConfig) (hsk : sameSkeleton a b)
    (hc : ∀ q, containerAt a q = containerAt b q) : a = b := by
  obtain ⟨hd, hu, hex, hlen, hlab, hfw⟩ := hsk
  have hsec : a.sections = b.sections := by
    apply List.ext_getElem?
    intro i
    rw [← List.get?_eq_getElem?, ← List.get?_eq_getElem?]
    cases hga : a.sections.get? i with
    | none =>
      cases hgb : b.sections.get? i with
      | none => rfl
      | some sB =>
        have hl := hlab i
        rw [hga, hgb] at hl
        cases hl
    | some sA =>
      cases hgb : b.sections.get? i with
      | none =>
        have hl := hlab i
        rw [hga, hgb] at hl
        cases hl
      | some sB =>
        have hlabi := hlab i
        rw [hga, hgb] at hlabi
        have hlabi' : sA.label = sB.label := by simpa using hlabi
        have hfwi := hfw i
        rw [hga, hgb] at hfwi
        have hfwi' : sA.frameworks.map (List.map FrameworkGroup.label) =
            sB.frameworks.map (List.map FrameworkGroup.label) := by simpa using hfwi
        have hchi : sA.children = sB.children := by
          have h0 := hc ⟨i, none⟩
          unfold containerAt at h0
          rw [hga, hgb] at h0
          exact h0
        have hfr : sA.frameworks = sB.frameworks := by
          cases hfa : sA.frameworks with
          | none =>
            cases hfb : sB.frameworks with
            | none => rfl
            | some fwsB => rw [hfa, hfb] at hfwi'; cases hfwi'
          | some fwsA =>
            cases hfb : sB.frameworks with
            | none => rw [hfa, hfb] at hfwi'; cases hfwi'
            | some fwsB =>
              rw [hfa, hfb] at hfwi'
              have hlabs : fwsA.map FrameworkGroup.label = fwsB.map FrameworkGroup.label := by
                simpa using hfwi'
              congr 1
              apply List.ext_getElem?
              intro j
              rw [← List.get?_eq_getElem?, ← List.get?_eq_getElem?]
              cases hja : fwsA.get? j with
              | none =>
                cases hjb : fwsB.get? j with
                | none => rfl
                | some fwB =>
                  have h1 : fwsA.length ≤ j := by
                    rw [List.get?_eq_getElem?] at hja
                    rw [← List.getElem?_eq_none_iff]
                    exact hja
                  have h2 : j < fwsB.length := (List.get?_eq_some.mp hjb).1
                  have h3 := congrArg List.length hlabs
                  simp only [List.length_map] at h3
                  omega
              | some fwA =>
                cases hjb : fwsB.get? j with
                | none =>
                  have h1 : fwsB.length ≤ j := by
                    rw [List.get?_eq_getElem?] at hjb
                    rw [← List.getElem?_eq_none_iff]
                    exact hjb
                  have h2 : j < fwsA.length := (List.get?_eq_some.mp hja).1
                  have h3 := congrArg List.length hlabs
                  simp only [List.length_map] at h3
                  omega
                | some fwB =>
                  have hlabj : fwA.label = fwB.label := by
                    have hmap := congrArg (fun l => l.get? j) hlabs
                    simp only [List.get?_eq_getElem?, List.getElem?_map] at hmap
                    rw [List.get?_eq_getElem?] at hja hjb
                    rw [hja, hjb] at hmap
                    simpa using hmap
                  have hchj : fwA.children = fwB.children := by
                    have h0 := hc ⟨i, some j⟩
                    unfold containerAt at h0
                    rw [hga, hgb] at h0
                    have h0' : (match sA.frameworks with
                        | none => ([] : List NavItem)
                        | some fws => match fws.get? j with
                          | none => []
                          | some fw => fw.children) =
                        (match sB.frameworks with
                        | none => ([] : List NavItem)
                        | some fws => match fws.get? j with
                          | none => []
                          | some fw => fw.children) := h0
                    rw [hfa, hfb] at h0'
                    have h0'' : (match fwsA.get? j with
                        | none => ([] : List NavItem)
                        | some fw => fw.children) =
                        (match fwsB.get? j with
                        | none => ([] : List NavItem)
                        | some fw => fw.children) := h0'
                    rw [hja, hjb] at h0''
                    exact h0''
                  have : (⟨fwA.label, fwA.children⟩ : FrameworkGroup) =
                      ⟨fwB.label, fwB.children⟩ := by rw [hlabj, hchj]
                  exact congrArg some this
        have : (⟨sA.label, sA.children, sA.frameworks⟩ : Section) =
            ⟨sB.label, sB.children, sB.frameworks⟩ := by rw [hlabi', hchi, hfr]
        exact congrArg some this
  have : (⟨a.docSearch, a.sections, a.users, a.extra⟩ : DocsConfig) =
      ⟨b.docSearch, b.sections, b.users, b.extra⟩ := by rw [hd, hsec, hu, hex]
  exact this

/-! ### The pure run and its pruned config -/

/-- The loop state of one pass, driven by an oracle: the per-file fold
from a fresh log over the index of the starting config. -/
def pureRun (O : String → Option FrontmatterInfo) (dir cp : String) (config : DocsConfig)
    (files : List String) : PureState :=
  files.foldl (pureStep O dir cp (buildPlacementIndex config)) { config := config }

/-- The persisted config of a pass: the loop config pruned by the
loop's skip set. -/
def prunedConfig (st : PureState) : DocsConfig :=
  (pruneConfig st.config st.skipRoutes st.log).1

theorem containerAt_prunedConfig (st : PureState) (q : Placement) :
    containerAt (prunedConfig st) q =
      (containerAt st.config q).filter (fun e => !(st.skipRoutes.contains e.to')) := by
  unfold prunedConfig
  rw [containerAt_prune, removeSkippedList_fst]

theorem firstHit_none_inv (idx : PlacementIndex) :
    ∀ (l : List String), firstHit idx l = none →
      ∀ x ∈ l, mapGet idx.byRoute x = none ∧ mapGet idx.byDir x = none := by
  intro l
  induction l with
  | nil => intro h x hx; cases hx
  | cons x rest ih =>
    intro h y hy
    unfold firstHit at h
    cases hbr : mapGet idx.byRoute x with
    | some v => rw [hbr] at h; exact Option.noConfusion h
    | none =>
      rw [hbr] at h
      cases hbd : mapGet idx.byDir x with
      | some v => rw [hbd] at h; exact Option.noConfusion h
      | none =>
        rw [hbd] at h
        have h' : firstHit idx rest = none := h
        rcases List.mem_cons.mp hy with heq | hy'
        · rw [heq]; exact ⟨hbr, hbd⟩
        · exact ih h' y hy'

theorem covers_hit (config : DocsConfig) (x : String) (hcov : covers config x) :
    ¬(mapGet (buildPlacementIndex config).byRoute x = none ∧
      mapGet (buildPlacementIndex config).byDir x = none) := by
  intro hboth
  obtain ⟨hbr, hbd⟩ := hboth
  obtain ⟨rp, hrp, hd⟩ := hcov
  rcases hd with heq | hchain
  · have hs := byRoute_isSome config x rp.2 (by rw [← heq]; exact hrp)
    rw [hbr] at hs
    cases hs
  · rw [byDir_firstRegistrant] at hbd
    unfold firstRegistrant at hbd
    cases hf : (registrations config).find? (fun q => (chainRoutes q.1).contains x) with
    | some v => rw [hf] at hbd; cases hbd
    | none =>
      rw [List.find?_eq_none] at hf
      exact hf rp hrp (by simpa [contains_iff] using hchain)

theorem findPlacement_none_covers_inv (config : DocsConfig) (r : String)
    (h : findPlacement r (buildPlacementIndex config) = none) :
    ∀ x ∈ chainRoutes r, ¬covers config x := by
  intro x hx hcov
  exact covers_hit config x hcov (firstHit_none_inv _ _ h x hx)

/-- A route the first pass could not place is still unplaceable against
the index rebuilt from the persisted config: pruning only removes
entries, and every added entry's route chain meets the original
coverage, which is closed under the ancestor order. -/
theorem no_new_match (O : String → Option FrontmatterInfo) (dir cp : String)
    (config : DocsConfig) (files : List String) (r : String)
    (hnone : findPlacement r (buildPlacementIndex config) = none) :
    findPlacement r (buildPlacementIndex
      (prunedConfig (pureRun O dir cp config files))) = none := by
  have hNC := findPlacement_none_covers_inv config r hnone
  apply findPlacement_none_covers
  intro y hy hcov
  obtain ⟨rp, hrp, hd⟩ := hcov
  obtain ⟨hval, e, he, heto⟩ := registrations_spec _ rp.1 rp.2 hrp
  rw [containerAt_prunedConfig, List.mem_filter] at he
  have he1 : e ∈ containerAt (pureRun O dir cp config files).config rp.2 := he.1
  have hdi := pureFold_new_entries O dir cp (buildPlacementIndex config) files
    { config := config } rp.2 e he1
  rcases hdi with horig | ⟨p, hpf, hroute, hisSome⟩
  · have hcov0 : covers config rp.1 := by
      obtain ⟨loc', hreg⟩ := registrations_complete config rp.2 e horig
      exact ⟨(e.to', loc'), hreg, Or.inl heto⟩
    rcases hd with heqy | hychain
    · exact hNC y hy (by rw [← heqy]; exact hcov0)
    · exact hNC y hy (covers_down config rp.1 y hcov0 hychain)
  · obtain ⟨loc₁, hfp1⟩ := Option.isSome_iff_exists.mp hisSome
    obtain ⟨x, hxchain, hxcov⟩ := findPlacement_some_covers config _ loc₁ hfp1
    have hteq : rp.1 = routeFromFile dir p := heto.symm.trans hroute
    have hxt : x ∈ chainRoutes rp.1 := by rw [hteq]; exact hxchain
    rcases hd with heqy | hychain
    · have hxy : x ∈ chainRoutes y := by rw [← heqy]; exact hxt
      exact hNC x (chainRoutes_sub r y x hy hxy) hxcov
    · rcases chainRoutes_total rp.1 x y hxt hychain with hxy | hyx
      · exact hNC x (chainRoutes_sub r y x hy hxy) hxcov
      · exact hNC y hy (covers_down config x y hxcov hyx)

/-- If a second pass (against the index of the pruned config) places a
titled, unskipped, unpruned route somewhere, the matched container of
the pruned config already holds an entry with that route. -/
theorem presence_for_matched (O : String → Option FrontmatterInfo) (dir cp : String)
    (config : DocsConfig) (files : List String) (p : String) (i : FrontmatterInfo)
    (loc₂ : Placement)
    (hp : p ∈ files) (hcp : p ≠ cp)
    (hrd : (isReadme (basename p) || isDraft (basename p)) = false)
    (hO : O p = some i) (ht : strTruthy i.title = true) (hsk : ¬(i.skip = some true))
    (hK : (pureRun O dir cp config files).skipRoutes.contains (routeFromFile dir p) = false)
    (hfp2 : findPlacement (routeFromFile dir p)
      (buildPlacementIndex (prunedConfig (pureRun O dir cp config files))) = some loc₂) :
    ∃ e ∈ containerAt (prunedConfig (pureRun O dir cp config files)) loc₂,
      e.to' = routeFromFile dir p := by
  have hr_ne : routeFromFile dir p ≠ "" := findPlacement_route_ne_empty _ _ _ hfp2
  cases hbr : mapGet (buildPlacementIndex
      (prunedConfig (pureRun O dir cp config files))).byRoute (routeFromFile dir p) with
  | some v =>
    have hfp2' := findPlacement_of_byRoute _ _ _ hr_ne hbr
    rw [hfp2] at hfp2'
    have hveq : loc₂ = v := Option.some_inj.mp hfp2'
    obtain ⟨hval, e, he, heto⟩ := registrations_spec _ _ _ (byRoute_mem _ _ _ hbr)
    refine ⟨e, ?_, heto⟩
    rw [hveq]
    exact he
  | none =>
    exfalso
    have hnoent : ∀ (q : Placement) (e : NavItem),
        e ∈ containerAt (prunedConfig (pureRun O dir cp config files)) q →
        e.to' ≠ routeFromFile dir p := by
      intro q e he heq
      obtain ⟨loc', hreg⟩ := registrations_complete _ q e he
      have hs := byRoute_isSome _ _ _ hreg
      rw [heq, hbr] at hs
      cases hs
    cases hfp1 : findPlacement (routeFromFile dir p) (buildPlacementIndex config) with
    | some loc₁ =>
      have hval1 := findPlacement_valid config _ loc₁ hfp1
      obtain ⟨e, he, heto⟩ := pureFold_places O dir cp (buildPlacementIndex config)
        files { config := config } p i loc₁ hp hcp hrd hO ht hsk hfp1 hval1
      have he2 : e ∈ containerAt (prunedConfig (pureRun O dir cp config files)) loc₁ := by
        rw [containerAt_prunedConfig, List.mem_filter]
        refine ⟨he, ?_⟩
        rw [heto]
        show (!(pureRun O dir cp config files).skipRoutes.contains (routeFromFile dir p)) = true
        rw [hK]
        rfl
      exact hnoent loc₁ e he2 heto
    | none =>
      have hnn := no_new_match O dir cp config files _ hfp1
      rw [hfp2] at hnn
      cases hnn

/-- One step of the second pass keeps every container equal to its
pruned-config version followed by entries of pruned routes only. -/
theorem pureStep_inv (O : String → Option FrontmatterInfo) (dir cp : String)
    (cfg₁ : DocsConfig) (K : List String) (st : PureState) (p : String)
    (hskel : sameSkeleton st.config cfg₁)
    (hInv : ∀ q, ∃ A, containerAt st.config q = containerAt cfg₁ q ++ A ∧
      ∀ a ∈ A, K.contains a.to' = true)
    (HGp : p ≠ cp → (isReadme (basename p) || isDraft (basename p)) = false →
      ∀ i, O p = some i → strTruthy i.title = true → ¬(i.skip = some true) →
      K.contains (routeFromFile dir p) = false →
      ∀ loc, findPlacement (routeFromFile dir p) (buildPlacementIndex cfg₁) = some loc →
      ∃ e ∈ containerAt cfg₁ loc, e.to' = routeFromFile dir p) :
    ∀ q, ∃ A, containerAt (pureStep O dir cp (buildPlacementIndex cfg₁) st p).config q =
      containerAt cfg₁ q ++ A ∧ ∀ a ∈ A, K.contains a.to' = true := by
  intro q
  unfold pureStep
  by_cases hc : p = cp
  · rw [if_pos hc]; exact hInv q
  · simp only [if_neg hc]
    cases hr : (isReadme (basename p) || isDraft (basename p)) with
    | true => exact hInv q
    | false =>
      cases hOp : O p with
      | none => exact hInv q
      | some i =>
        simp only [classifyStep]
        cases hT : (!strTruthy i.title) with
        | true => exact hInv q
        | false =>
          by_cases hS : i.skip = some true
          · simp only [if_pos hS]; exact hInv q
          · simp only [if_neg hS]
            cases hfp : findPlacement (routeFromFile dir p) (buildPlacementIndex cfg₁) with
            | none => exact hInv q
            | some loc =>
              have hval : locValid st.config loc :=
                locValid_of_skeleton _ _ hskel loc (findPlacement_valid cfg₁ _ loc hfp)
              by_cases hK : K.contains (routeFromFile dir p) = true
              · by_cases hq : q = loc
                · rw [hq]
                  obtain ⟨A, hA, hKA⟩ := hInv loc
                  rcases ensureNavItem_extends (containerAt st.config loc)
                      ⟨String.mk (trimChars (i.title.getD "").toList), routeFromFile dir p,
                        none⟩ st.log with hee | hee
                  · refine ⟨A, ?_, hKA⟩
                    show containerAt (updateContainer st.config loc
                        (ensureNavItem (containerAt st.config loc)
                          ⟨String.mk (trimChars (i.title.getD "").toList),
                            routeFromFile dir p, none⟩ st.log).1) loc =
                      containerAt cfg₁ loc ++ A
                    rw [containerAt_update_self _ _ _ hval, hee, hA]
                  · refine ⟨A ++ [⟨String.mk (trimChars (i.title.getD "").toList),
                        routeFromFile dir p, none⟩], ?_, ?_⟩
                    · show containerAt (updateContainer st.config loc
                          (ensureNavItem (containerAt st.config loc)
                            ⟨String.mk (trimChars (i.title.getD "").toList),
                              routeFromFile dir p, none⟩ st.log).1) loc =
                        containerAt cfg₁ loc ++
                          (A ++ [⟨String.mk (trimChars (i.title.getD "").toList),
                            routeFromFile dir p, none⟩])
                      rw [containerAt_update_self _ _ _ hval, hee, hA, List.append_assoc]
                    · intro a ha
                      rcases List.mem_append.mp ha with h1 | h2
                      · exact hKA a h1
                      · rw [List.mem_singleton] at h2
                        rw [h2]
                        exact hK
                · obtain ⟨A, hA, hKA⟩ := hInv q
                  refine ⟨A, ?_, hKA⟩
                  show containerAt (updateContainer st.config loc
                      (ensureNavItem (containerAt st.config loc)
                        ⟨String.mk (trimChars (i.title.getD "").toList),
                          routeFromFile dir p, none⟩ st.log).1) q =
                    containerAt cfg₁ q ++ A
                  rw [containerAt_update_of_ne _ _ _ _ hq, hA]
              · have hKf : K.contains (routeFromFile dir p) = false := by
                  cases hcc : K.contains (routeFromFile dir p) with
                  | false => rfl
                  | true => exact absurd hcc hK
                have ht : strTruthy i.title = true := by
                  cases hst : strTruthy i.title with
                  | true => rfl
                  | false => rw [hst] at hT; cases hT
                obtain ⟨e₀, he₀, hto₀⟩ := HGp hc hr i hOp ht hS hKf loc hfp
                obtain ⟨A, hA, hKA⟩ := hInv loc
                have hmem : ∃ e ∈ containerAt st.config loc,
                    e.to' = (⟨String.mk (trimChars (i.title.getD "").toList),
                      routeFromFile dir p, none⟩ : NavItem).to' := by
                  refine ⟨e₀, ?_, hto₀⟩
                  rw [hA]
                  exact List.mem_append_left _ he₀
                have hens := ensureNavItem_of_mem (containerAt st.config loc)
                  ⟨String.mk (trimChars (i.title.getD "").toList), routeFromFile dir p, none⟩
                  st.log hmem
                by_cases hq : q = loc
                · rw [hq]
                  refine ⟨A, ?_, hKA⟩
                  show containerAt (updateContainer st.config loc
                      (ensureNavItem (containerAt st.config loc)
                        ⟨String.mk (trimChars (i.title.getD "").toList),
                          routeFromFile dir p, none⟩ st.log).1) loc =
                    containerAt cfg₁ loc ++ A
                  rw [containerAt_update_self _ _ _ hval, hens, hA]
                · obtain ⟨A', hA', hKA'⟩ := hInv q
                  refine ⟨A', ?_, hKA'⟩
                  show containerAt (updateContainer st.config loc
                      (ensureNavItem (containerAt st.config loc)
                        ⟨String.mk (trimChars (i.title.getD "").toList),
                          routeFromFile dir p, none⟩ st.log).1) q =
                    containerAt cfg₁ q ++ A'
                  rw [containerAt_update_of_ne _ _ _ _ hq, hA']

/-- The second pass's fold keeps every container equal to its
pruned-config version followed by entries of pruned routes only. -/
theorem runTwo_inv (O : String → Option FrontmatterInfo) (dir cp : String)
    (cfg₁ : DocsConfig) (K : List String) (files : List String)
    (HG : ∀ p ∈ files, p ≠ cp → (isReadme (basename p) || isDraft (basename p)) = false →
      ∀ i, O p = some i → strTruthy i.title = true → ¬(i.skip = some true) →
      K.contains (routeFromFile dir p) = false →
      ∀ loc, findPlacement (routeFromFile dir p) (buildPlacementIndex cfg₁) = some loc →
      ∃ e ∈ containerAt cfg₁ loc, e.to' = routeFromFile dir p) :
    ∀ (suffix : List String) (st : PureState),
      (∀ p ∈ suffix, p ∈ files) →
      sameSkeleton st.config cfg₁ →
      (∀ q, ∃ A, containerAt st.config q = containerAt cfg₁ q ++ A ∧
        ∀ a ∈ A, K.contains a.to' = true) →
      ∀ q, ∃ A, containerAt
          (suffix.foldl (pureStep O dir cp (buildPlacementIndex cfg₁)) st).config q =
        containerAt cfg₁ q ++ A ∧ ∀ a ∈ A, K.contains a.to' = true := by
  intro suffix
  induction suffix with
  | nil => intro st hsub hskel hInv q; exact hInv q
  | cons p rest ih =>
    intro st hsub hskel hInv q
    exact ih (pureStep O dir cp (buildPlacementIndex cfg₁) st p)
      (fun x hx => hsub x (List.mem_cons_of_mem p hx))
      (sameSkeleton_trans (pureStep_skeleton O dir cp (buildPlacementIndex cfg₁) st p) hskel)
      (pureStep_inv O dir cp cfg₁ K st p hskel hInv
        (fun hcp hrd i hOi hti hsk hKf loc hfp =>
          HG p (hsub p (List.mem_cons_self p rest)) hcp hrd i hOi hti hsk hKf loc hfp))
      q

/-- Idempotence of the oracle-driven pass: pruning the second pass's
loop config (run from the first pass's persisted config, against its
rebuilt index) gives back the first pass's persisted config. -/
theorem pureRun_idem (O : String → Option FrontmatterInfo) (dir cp : String)
    (config : DocsConfig) (files : List String) :
    prunedConfig (pureRun O dir cp (prunedConfig (pureRun O dir cp config files)) files) =
      prunedConfig (pureRun O dir cp config files) := by
  have hKeq : (pureRun O dir cp (prunedConfig (pureRun O dir cp config files))
        files).skipRoutes = (pureRun O dir cp config files).skipRoutes :=
    pureFold_skip_eq O dir cp
      (buildPlacementIndex (prunedConfig (pureRun O dir cp config files)))
      (buildPlacementIndex config) files
      { config := prunedConfig (pureRun O dir cp config files) } { config := config } rfl
  have HG : ∀ p ∈ files, p ≠ cp →
      (isReadme (basename p) || isDraft (basename p)) = false →
      ∀ i, O p = some i → strTruthy i.title = true → ¬(i.skip = some true) →
      (pureRun O dir cp config files).skipRoutes.contains (routeFromFile dir p) = false →
      ∀ loc, findPlacement (routeFromFile dir p)
        (buildPlacementIndex (prunedConfig (pureRun O dir cp config files))) = some loc →
      ∃ e ∈ containerAt (prunedConfig (pureRun O dir cp config files)) loc,
        e.to' = routeFromFile dir p :=
    fun p hp hcp hrd i hOi hti hsk hKf loc hfp =>
      presence_for_matched O dir cp config files p i loc hp hcp hrd hOi hti hsk hKf hfp
  have hInv := runTwo_inv O dir cp (prunedConfig (pureRun O dir cp config files))
    (pureRun O dir cp config files).skipRoutes files HG files
    { config := prunedConfig (pureRun O dir cp config files) }
    (fun p hp => hp) (sameSkeleton_refl _)
    (fun q => ⟨[], by simp, fun a ha => absurd ha (List.not_mem_nil a)⟩)
  apply config_ext
  · have hs1 : sameSkeleton
        (prunedConfig (pureRun O dir cp (prunedConfig (pureRun O dir cp config files)) files))
        (pureRun O dir cp (prunedConfig (pureRun O dir cp config files)) files).config :=
      prune_skeleton _ _ _
    have hs2 : sameSkeleton
        (pureRun O dir cp (prunedConfig (pureRun O dir cp config files)) files).config
        (prunedConfig (pureRun O dir cp config files)) :=
      pureFold_skeleton O dir cp
        (buildPlacementIndex (prunedConfig (pureRun O dir cp config files))) files
        { config := prunedConfig (pureRun O dir cp config files) }
    exact sameSkeleton_trans hs1 hs2
  · intro q
    obtain ⟨A, hA, hKA⟩ := hInv q
    rw [containerAt_prunedConfig, hKeq]
    rw [show containerAt
        (pureRun O dir cp (prunedConfig (pureRun O dir cp config files)) files).config q =
      containerAt (prunedConfig (pureRun O dir cp config files)) q ++ A from hA]
    rw [List.filter_append]
    have h2 : (containerAt (prunedConfig (pureRun O dir cp config files)) q).filter
        (fun e => !((pureRun O dir cp config files).skipRoutes.contains e.to')) =
        containerAt (prunedConfig (pureRun O dir cp config files)) q := by
      apply List.filter_eq_self.mpr
      intro e he
      rw [containerAt_prunedConfig, List.mem_filter] at he
      exact he.2
    have h3 : A.filter
        (fun e => !((pureRun O dir cp config files).skipRoutes.contains e.to')) = [] := by
      apply List.filter_eq_nil_iff.mpr
      intro a ha
      rw [hKA a ha]
      simp
    rw [h2, h3, List.append_nil]

/-- One pass's persisted config, expressed as the pruned pure run
driven by the oracle of the pass's own final cache. -/
theorem processDocsConfig_config_pure (fs : FS) (dir : String) (config : DocsConfig)
    (cache : Cache) :
    (processDocsConfig fs dir config cache).config =
      prunedConfig (pureRun (oracleOf fs dir (processDocsConfig fs dir config cache).cache)
        dir (dir ++ "/config.json") config (listContentFiles fs dir)) := by
  have h := runLoop_pure fs dir (dir ++ "/config.json") (buildPlacementIndex config)
    (listContentFiles fs dir) ⟨{ config := config }, cache⟩
  show prunedConfig (runLoop fs dir (dir ++ "/config.json") (buildPlacementIndex config)
    ⟨{ config := config }, cache⟩ (listContentFiles fs dir)).pure = _
  rw [h]
  rfl

/-- A pass started from the first pass's cache persists the pruned pure
run driven by the first pass's oracle. -/
theorem processDocsConfig_config_pure_frozen (fs : FS) (dir : String) (config : DocsConfig)
    (cache : Cache) (config' : DocsConfig) :
    (processDocsConfig fs dir config' (processDocsConfig fs dir config cache).cache).config =
      prunedConfig (pureRun (oracleOf fs dir (processDocsConfig fs dir config cache).cache)
        dir (dir ++ "/config.json") config' (listContentFiles fs dir)) := by
  rw [processDocsConfig_config_pure fs dir config' (processDocsConfig fs dir config cache).cache]
  rw [processDocsConfig_cache_frozen fs dir config cache config']

/-- The persisted config is a fixed point: a second pass from the
first pass's config and cache persists the same config. -/
theorem processDocsConfig_idem (fs : FS) (dir : String) (config : DocsConfig)
    (cache : Cache) :
    (processDocsConfig fs dir (processDocsConfig fs dir config cache).config
        (processDocsConfig fs dir config cache).cache).config =
      (processDocsConfig fs dir config cache).config := by
  rw [processDocsConfig_config_pure_frozen fs dir config cache
    (processDocsConfig fs dir config cache).config]
  rw [processDocsConfig_config_pure fs dir config cache]
  exact pureRun_idem _ _ _ _ _

/-- The pair (persisted config, cache) of the first pass is a fixed
point of the iteration. -/
theorem iterRuns_fix (fs : FS) (dir : String) (config : DocsConfig) (cache : Cache) :
    ∀ m, iterRuns fs dir m (processDocsConfig fs dir config cache).config
      (processDocsConfig fs dir config cache).cache =
      ((processDocsConfig fs dir config cache).config,
        (processDocsConfig fs dir config cache).cache) := by
  intro m
  induction m with
  | zero => rfl
  | succ k ih =>
    show iterRuns fs dir k
      (processDocsConfig fs dir (processDocsConfig fs dir config cache).config
        (processDocsConfig fs dir config cache).cache).config
      (processDocsConfig fs dir (processDocsConfig fs dir config cache).config
        (processDocsConfig fs dir config cache).cache).cache = _
    rw [processDocsConfig_idem fs dir config cache,
      processDocsConfig_cache_frozen fs dir config cache
        (processDocsConfig fs dir config cache).config]
    exact ih

/-! ### Claim C1 -/

/-- C1 counterexample: the second run's change report is not empty.  A
file without a frontmatter block is reported under missingFrontmatter
on every run (pushUnique into a fresh log each time), so running the
synchronizer twice with no filesystem changes still produces a
non-empty report on the second run. -/
theorem c1_counterexample :
    (processDocsConfig [("/docs/r/a.md", "hello")] "/docs/r"
        (processDocsConfig [("/docs/r/a.md", "hello")] "/docs/r"
          { sections := [] } []).config
        (processDocsConfig [("/docs/r/a.md", "hello")] "/docs/r"
          { sections := [] } []).cache).log.missingFrontmatter = ["a.md"] := by
  decide

/-- C1 (amended): idempotence holds at the level of the persisted
state, not of the report.  A second pass from the first pass's config
and cache persists the identical config and leaves the cache
unchanged, and every further iterated run returns the same pair - but
the second run's change report can repeat informational categories
(missingFrontmatter, unmatched, skipped, and even added/removed under
route collisions), refuting the original claim. -/
theorem c1_idempotence (fs : FS) (dir : String) (config : DocsConfig) (cache : Cache) :
    (processDocsConfig fs dir (processDocsConfig fs dir config cache).config
        (processDocsConfig fs dir config cache).cache).config =
      (processDocsConfig fs dir config cache).config ∧
    (processDocsConfig fs dir (processDocsConfig fs dir config cache).config
        (processDocsConfig fs dir config cache).cache).cache =
      (processDocsConfig fs dir config cache).cache ∧
    ∀ n, 1 ≤ n → iterRuns fs dir n config cache =
      ((processDocsConfig fs dir config cache).config,
        (processDocsConfig fs dir config cache).cache) := by
  refine ⟨processDocsConfig_idem fs dir config cache,
    processDocsConfig_cache_frozen fs dir config cache _, ?_⟩
  intro n hn
  obtain ⟨m, rfl⟩ : ∃ m, n = m + 1 := ⟨n - 1, by omega⟩
  show iterRuns fs dir m (processDocsConfig fs dir config cache).config
    (processDocsConfig fs dir config cache).cache = _
  exact iterRuns_fix fs dir config cache m

/-- Witness for C1: the fixed-point statement applied at one run over
a one-file root. -/
theorem c1_idempotence_witness :
    iterRuns [("/docs/r/a.md", "---\ntitle: A\n---\n")] "/docs/r" 1
      { sections := [{ label := "S", children := [] }] } [] =
      ((processDocsConfig [("/docs/r/a.md", "---\ntitle: A\n---\n")] "/docs/r"
          { sections := [{ label := "S", children := [] }] } []).config,
        (processDocsConfig [("/docs/r/a.md", "---\ntitle: A\n---\n")] "/docs/r"
          { sections := [{ label := "S", children := [] }] } []).cache) :=
  (c1_idempotence [("/docs/r/a.md", "---\ntitle: A\n---\n")] "/docs/r"
    { sections := [{ label := "S", children := [] }] } []).2.2 1 (by decide)

end SyncDocs
